import Mathlib

/-! wms-tiles-downloader: tile enumeration geometry

A shallow embedding of `mercantile/mercantile.go` (and of the legacy
`pkg/mercantile/mercantile.go`) together with theorems about it.

Conventions of the embedding.

* `float64` is read as exact real arithmetic: a `float64` is a real number,
  `math.Pi` is `Real.pi`, `math.Log`, `math.Tan`, `math.Cos`, `math.Atan`,
  `math.Sinh` are the real functions, `math.Max` / `math.Min` are `max` / `min`.
  Definitions that compute with reals are therefore not executable; concrete
  evaluations are proved.
* Go's `int` is read as an unbounded integer.
* `math.Floor` is `goFloor`, the conversion `int(x)` of a `float64` is `toInt`
  (truncation toward zero), `float64(i)` is the cast `ℤ → ℝ`, and
  `math.Pow(2.0, float64(z))` is `pow2 z`, also for a negative `z`.
* A sub-box `bbox []float64` is the record of the four entries `bbox[0]` ..
  `bbox[3]` that `Tiles` reads; shorter slices (an index panic) are not modelled.
* A `for` loop is a recursive function on the loop variable which passes the
  slice being appended to (`tiles`) along; `fmt.Printf` is not modelled.
-/

namespace Mercantile

/-- TileID represents ID of the tile in X, Y, Z format. -/
structure TileID where
  X : Int
  Y : Int
  Z : Int
  deriving DecidableEq, Repr

/-- Bbox represents Web Mercator Bounding Box. -/
structure Bbox where
  Left : ℝ
  Bottom : ℝ
  Right : ℝ
  Top : ℝ

/-- LngLat represents point in space. -/
structure LngLat where
  Lng : ℝ
  Lat : ℝ

/-- One element `bbox` of the `bboxes [][]float64` argument of `Tiles`:
`west = bbox[0]`, `south = bbox[1]`, `east = bbox[2]`, `north = bbox[3]`. -/
structure SubBox where
  west : ℝ
  south : ℝ
  east : ℝ
  north : ℝ

noncomputable section

/-- The result of `math.Floor(x)`, a `float64` with an integral value. -/
def goFloor (x : ℝ) : ℝ := (⌊x⌋ : ℤ)

/-- The conversion `int(x)` of a `float64`: the fraction is discarded
(truncation toward zero). -/
def toInt (x : ℝ) : Int := if 0 ≤ x then ⌊x⌋ else ⌈x⌉

/-- The value of `math.Pow(2.0, float64(z))`. -/
def pow2 (z : Int) : ℝ := (2 : ℝ) ^ z

/-- Xy retrieves Spherical Mercator (x, y) in meters. -/
def Xy (lngLat : LngLat) : ℝ × ℝ :=
  let lng := lngLat.Lng * (Real.pi / 180.0)
  let lat := lngLat.Lat * (Real.pi / 180.0)
  let x := 6378137.0 * lng
  let y := 6378137.0 * Real.log (Real.tan ((Real.pi * 0.25) + (0.5 * lat)))
  (x, y)

/-- Ul retrieves upper left coordinates (lon, lat) of a tile. -/
def Ul (tile : TileID) : LngLat :=
  let n := pow2 tile.Z
  let lonDeg := (tile.X : ℝ) / n * 360.0 - 180.0
  let latRad := Real.arctan (Real.sinh (Real.pi * (1 - 2 * (tile.Y : ℝ) / n)))
  let latDeg := (180.0 / Real.pi) * latRad
  ⟨lonDeg, latDeg⟩

/-- Br retrieves bottom right coordinates (lon, lat) of a tile. -/
def Br (tile : TileID) : LngLat :=
  let nextTile : TileID := ⟨tile.X + 1, tile.Y + 1, tile.Z⟩
  Ul nextTile

/-- XyBounds retrieves Spherical Mercator Bounding Box of a tile. -/
def XyBounds (tile : TileID) : Bbox :=
  let lt := Xy (Ul tile)
  let nextTile : TileID := ⟨tile.X + 1, tile.Y + 1, tile.Z⟩
  let rb := Xy (Ul nextTile)
  ⟨lt.1, rb.2, rb.1, lt.2⟩

/-- Tile retrieves tile containing given longitude and latitude. -/
def Tile (lng : ℝ) (lat : ℝ) (zoom : Int) : TileID :=
  let lat := lat * (Real.pi / 180.0)
  let n := pow2 zoom
  let tileX := toInt (goFloor ((lng + 180.0) / 360.0 * n))
  let tileY := toInt (goFloor ((1.0 - Real.log (Real.tan lat + (1.0 / Real.cos lat)) / Real.pi) / 2.0 * n))
  ⟨tileX, tileY, zoom⟩

/-- The type `PolygonOption func(tile TileID) float64`. -/
abbrev PolygonOption := TileID → ℝ

/-- The test of the loop body of `Tiles` that ends in `continue`:
`len(options) == 1` and `area := options[0](tile)` has `area == 0`. -/
def skipped (options : List PolygonOption) (tile : TileID) : Prop :=
  match options with
  | [opt] => opt tile = 0
  | _ => False

instance (options : List PolygonOption) (tile : TileID) : Decidable (skipped options tile) :=
  Classical.dec _

/-- The inner loop of `Tiles`,
`for j := ury; j < int(math.Min(float64(ll.Y)+1.0, math.Pow(2.0, float64(z)))); j++`,
from the value `j` of its variable on; `tiles` is the slice appended to. -/
def tilesLoopJ (options : List PolygonOption) (ll : TileID) (z i : Int) (j : Int)
    (tiles : List TileID) : List TileID :=
  if j < toInt (min ((ll.Y : ℝ) + 1.0) (pow2 z)) then
    let tile : TileID := ⟨i, j, z⟩
    if skipped options tile then
      tilesLoopJ options ll z i (j + 1) tiles
    else
      tilesLoopJ options ll z i (j + 1) (tiles ++ [tile])
  else tiles
termination_by (toInt (min ((ll.Y : ℝ) + 1.0) (pow2 z)) - j).toNat
decreasing_by all_goals simp_wf; omega

/-- The outer loop of `Tiles`,
`for i := llx; i < int(math.Min(float64(ur.X)+1.0, math.Pow(2.0, float64(z)))); i++`,
from the value `i` of its variable on. -/
def tilesLoopI (options : List PolygonOption) (ll ur : TileID) (z ury : Int) (i : Int)
    (tiles : List TileID) : List TileID :=
  if i < toInt (min ((ur.X : ℝ) + 1.0) (pow2 z)) then
    tilesLoopI options ll ur z ury (i + 1) (tilesLoopJ options ll z i ury tiles)
  else tiles
termination_by (toInt (min ((ur.X : ℝ) + 1.0) (pow2 z)) - i).toNat
decreasing_by all_goals simp_wf; omega

/-- The body of `for _, z := range zooms` in `Tiles`, for the clamped
coordinates `w s e n` of the current sub-box. -/
def tilesZoom (options : List PolygonOption) (w s e n : ℝ) (tiles : List TileID) (z : Int) :
    List TileID :=
  let ll := Tile w s z
  let ur := Tile e n z
  let llx : Int := if ll.X < 0 then 0 else ll.X
  let ury : Int := if ur.Y < 0 then 0 else ur.Y
  tilesLoopI options ll ur z ury llx tiles

/-- The four assignments `w := math.Max(-180.0, bbox[0])`,
`s := math.Max(-85.051129, bbox[1])`, `e := math.Min(180.0, bbox[2])`,
`n := math.Min(85.051129, bbox[3])` at the head of the sub-box loop of `Tiles`;
the result holds `w`, `s`, `e`, `n` in this order. -/
def clampBbox (bbox : SubBox) : SubBox :=
  let w := max (-180.0) bbox.west
  let s := max (-85.051129) bbox.south
  let e := min 180.0 bbox.east
  let n := min 85.051129 bbox.north
  ⟨w, s, e, n⟩

/-- The body of `for _, bbox := range bboxes` in `Tiles`. -/
def tilesBbox (zooms : List Int) (options : List PolygonOption) (tiles : List TileID)
    (bbox : SubBox) : List TileID :=
  let c := clampBbox bbox
  zooms.foldl (tilesZoom options c.west c.south c.east c.north) tiles

/-- The function `Tiles(bboxes [][]float64, zooms []int, options ...PolygonOption) []TileID`. -/
def Tiles (bboxes : List SubBox) (zooms : List Int) (options : List PolygonOption) :
    List TileID :=
  bboxes.foldl (tilesBbox zooms options) []

/-- TilesFromBbox retrieves tiles intersecting a geographic bounding box. -/
def TilesFromBbox (west south east north : ℝ) (zooms : List Int) : List TileID :=
  let bboxes : List SubBox :=
    if west > east then
      let bboxWest : SubBox := ⟨-180.0, south, east, north⟩
      let bboxEast : SubBox := ⟨west, south, 180.0, north⟩
      [bboxWest, bboxEast]
    else
      [⟨west, south, east, north⟩]
  Tiles bboxes zooms []

/-- The function `WithPolygon(polygon geoshapes.Polygon) PolygonOption`. The
geometry library is outside the repository: `interArea p q` stands for
`p.Intersection(q).Area()`, polygons being given by the points of their ring. -/
def WithPolygon (interArea : List (ℝ × ℝ) → List (ℝ × ℝ) → ℝ) (polygon : List (ℝ × ℝ)) :
    PolygonOption :=
  fun tile =>
    let ul := Ul tile
    let br := Br tile
    let tile_latlon : List (ℝ × ℝ) :=
      [(ul.Lng, ul.Lat), (br.Lng, ul.Lat), (br.Lng, br.Lat), (ul.Lng, br.Lat)]
    interArea polygon tile_latlon

/-- One pass of the body of the loop over the ring points in `TilesFromGeoJSON`;
`ext` holds the variables `west`, `south`, `east`, `north`, and `point` is
`(point[0], point[1])`. -/
def extentStep (ext : SubBox) (point : ℝ × ℝ) : SubBox :=
  let west := if point.1 < ext.west ∨ ext.west = 0.0 then point.1 else ext.west
  let east := if point.1 > ext.east ∨ ext.east = 0.0 then point.1 else ext.east
  let south := if point.2 < ext.south ∨ ext.south = 0.0 then point.2 else ext.south
  let north := if point.2 > ext.north ∨ ext.north = 0.0 then point.2 else ext.north
  ⟨west, south, east, north⟩

/-- The extent `west`, `south`, `east`, `north` that `TilesFromGeoJSON` has
computed when its loop over the ring
`fc.Features[0].Geometry.MultiPolygon[0][0]` ends; all four start at `0.0`. -/
def ringExtent (ring : List (ℝ × ℝ)) : SubBox :=
  ring.foldl extentStep ⟨0.0, 0.0, 0.0, 0.0⟩

/-- TilesFromGeoJSON retrieves tiles intersecting a GeoJSON polygon. Reading and
decoding the file is not modelled: `ring` is the decoded first ring. -/
def TilesFromGeoJSON (interArea : List (ℝ × ℝ) → List (ℝ × ℝ) → ℝ) (ring : List (ℝ × ℝ))
    (zooms : List Int) : List TileID :=
  let ext := ringExtent ring
  let polygon := ring
  let bboxes : List SubBox :=
    if ext.west > ext.east then
      let bboxWest : SubBox := ⟨-180.0, ext.south, ext.east, ext.north⟩
      let bboxEast : SubBox := ⟨ext.west, ext.south, 180.0, ext.north⟩
      [bboxWest, bboxEast]
    else
      [⟨ext.west, ext.south, ext.east, ext.north⟩]
  Tiles bboxes zooms [WithPolygon interArea polygon]

end

/-! ### Reference definitions, written from the specification -/

/-- The integers `lo, lo + 1, ..., hi - 1` in ascending order (none when `hi ≤ lo`). -/
def ascending (lo hi : Int) : List Int :=
  (List.range (hi - lo).toNat).map (fun (k : Nat) => lo + (k : Int))

noncomputable section

/-- The block of tiles the specification assigns to one sub-box and one zoom
`z ≥ 0`: `x` ascending in `[max(ll.X, 0), min(ur.X + 1, 2^z))` and, for each `x`,
`y` ascending in `[max(ur.Y, 0), min(ll.Y + 1, 2^z))`, where `ll` and `ur` are
the tiles of the clamped south-west and north-east corners. -/
def specBlock (bbox : SubBox) (z : Int) : List TileID :=
  let ll := Tile (max (-180) bbox.west) (max (-85.051129) bbox.south) z
  let ur := Tile (min 180 bbox.east) (min 85.051129 bbox.north) z
  let xStart := max ll.X 0
  let yStart := max ur.Y 0
  let xEnd := min (ur.X + 1) (2 ^ z.toNat)
  let yEnd := min (ll.Y + 1) (2 ^ z.toNat)
  (ascending xStart xEnd).flatMap fun x => (ascending yStart yEnd).map fun y => ⟨x, y, z⟩

/-- The tiles that one run of the two nested loops of `Tiles` appends, for the
corner tiles `ll`, `ur` at zoom `z`, as a list: the loop bounds are those of
the code, `int(math.Min(...))` included, and the skipped tiles are left out. -/
def loopTiles (options : List PolygonOption) (ll ur : TileID) (z : Int) : List TileID :=
  ((ascending (if ll.X < 0 then 0 else ll.X)
      (toInt (min ((ur.X : ℝ) + 1.0) (pow2 z)))).flatMap fun x =>
    (ascending (if ur.Y < 0 then 0 else ur.Y)
      (toInt (min ((ll.Y : ℝ) + 1.0) (pow2 z)))).map fun y => (⟨x, y, z⟩ : TileID)).filter
    fun t => decide (¬ skipped options t)

/-- The enumeration of the specification: the blocks of all sub-boxes in input
order and, inside each sub-box, of all zooms in input order, concatenated. -/
def specTiles (bboxes : List SubBox) (zooms : List Int) : List TileID :=
  bboxes.flatMap fun bbox => zooms.flatMap fun z => specBlock bbox z

end

end Mercantile

/-! ## The legacy package `pkg/mercantile` -/

namespace PkgMercantile

open Mercantile (TileID SubBox goFloor toInt pow2)

noncomputable section

/-- Tile get the tile containing a longitude and latitude. -/
def Tile (lng : ℝ) (lat : ℝ) (zoom : Int) : TileID :=
  let lat := lat * (Real.pi / 180.0)
  let n := pow2 zoom
  let tileX := toInt (goFloor ((lng + 180.0) / 360.0 * n))
  let tileY := toInt (goFloor ((1.0 - Real.log (Real.tan lat + (1.0 / Real.cos lat)) / Real.pi) / 2.0 * n))
  ⟨tileX, tileY, zoom⟩

/-- The inner loop of the legacy `Tiles`, from the value `j` of its variable on. -/
def tilesLoopJ (ll : TileID) (z i : Int) (j : Int) (tiles : List TileID) : List TileID :=
  if j < toInt (min ((ll.Y : ℝ) + 1.0) (pow2 z)) then
    tilesLoopJ ll z i (j + 1) (tiles ++ [⟨i, j, z⟩])
  else tiles
termination_by (toInt (min ((ll.Y : ℝ) + 1.0) (pow2 z)) - j).toNat
decreasing_by all_goals simp_wf; omega

/-- The outer loop of the legacy `Tiles`, from the value `i` of its variable on. -/
def tilesLoopI (ll ur : TileID) (z ury : Int) (i : Int) (tiles : List TileID) : List TileID :=
  if i < toInt (min ((ur.X : ℝ) + 1.0) (pow2 z)) then
    tilesLoopI ll ur z ury (i + 1) (tilesLoopJ ll z i ury tiles)
  else tiles
termination_by (toInt (min ((ur.X : ℝ) + 1.0) (pow2 z)) - i).toNat
decreasing_by all_goals simp_wf; omega

/-- The four assignments to `w`, `s`, `e`, `n` at the head of the sub-box loop
of the legacy `Tiles`. -/
def clampBbox (bbox : SubBox) : SubBox :=
  let w := max (-180.0) bbox.west
  let s := max (-85.051129) bbox.south
  let e := min 180.0 bbox.east
  let n := min 85.051129 bbox.north
  ⟨w, s, e, n⟩

/-- The body of `for _, z := range zooms` in the legacy `Tiles`. -/
def tilesZoom (w s e n : ℝ) (tiles : List TileID) (z : Int) : List TileID :=
  let ll := Tile w s z
  let ur := Tile e n z
  let llx : Int := if ll.X < 0 then 0 else ll.X
  let ury : Int := if ur.Y < 0 then 0 else ur.Y
  tilesLoopI ll ur z ury llx tiles

/-- Tiles get the tiles intersecting a geographic bounding box. -/
def Tiles (west south east north : ℝ) (zooms : List Int) : List TileID :=
  let bboxes : List SubBox :=
    if west > east then
      let bboxWest : SubBox := ⟨-180.0, south, east, north⟩
      let bboxEast : SubBox := ⟨west, south, 180.0, north⟩
      [bboxWest, bboxEast]
    else
      [⟨west, south, east, north⟩]
  bboxes.foldl
    (fun tiles bbox =>
      let c := clampBbox bbox
      zooms.foldl (tilesZoom c.west c.south c.east c.north) tiles)
    []

end

end PkgMercantile

/-! ## The package `downloader`

A Go `string` is modelled as the list of its characters. A slice of type
`Zooms []int` is an optional list, `none` being the nil slice. The value of Go
type `error` that `ValidateOptions` returns is its message, `none` being `nil`.
`strings.Split` and `strconv.Atoi` belong to the Go standard library; they are
modelled from their documentation, `int` being 64 bits wide for `Atoi`. -/

namespace Downloader

/-- A Go `string`. -/
abbrev GoString := List Char

/-- Zooms stores zoom levels, for which tiles should be downloaded. -/
abbrev Zooms := Option (List Int)

/-- Bbox stores a web mercator bounding box, for which tiles should be
downloaded. -/
structure Bbox where
  Left : ℝ
  Bottom : ℝ
  Right : ℝ
  Top : ℝ

/-- Options struct stores all available flags and their values set by user. -/
structure Options where
  URL : GoString
  Layer : GoString
  Format : GoString
  Service : GoString
  Version : GoString
  Width : GoString
  Height : GoString
  Srs : GoString
  Styles : GoString
  Zooms : Zooms
  Bbox : Bbox

noncomputable section

instance : DecidableEq Bbox := fun a b => Classical.dec (a = b)

/-- ValidateOptions validates options supplied by user. `Bbox{}` is the box
whose four fields are `0`. -/
def ValidateOptions (options : Options) : Option String :=
  if options.URL = [] then some "Wms server url is required"
  else if options.Layer = [] then some "Layer name is required"
  else if options.Zooms = none then some "Zooms are required"
  else if options.Bbox = (⟨0, 0, 0, 0⟩ : Bbox) then some "Bbox is required"
  else none

end

/-- The error `*strconv.NumError` of a failed `strconv.Atoi`, with the input
`Num` it reports; whether it wraps `ErrSyntax` or `ErrRange` is not modelled. -/
structure NumError where
  Num : GoString
  deriving DecidableEq, Repr

/-- The value of a decimal digit, `none` for any other character. -/
def digitValue (c : Char) : Option Nat :=
  if '0' ≤ c ∧ c ≤ '9' then some (c.toNat - '0'.toNat) else none

/-- The digit loop of `strconv.ParseUint` in base 10: `n` is the value read so
far; `none` when a character is not a digit. -/
def parseDigits : List Char → Nat → Option Nat
  | [], n => some n
  | c :: cs, n =>
    match digitValue c with
    | some d => parseDigits cs (n * 10 + d)
    | none => none

/-- The part of `strconv.Atoi` after the sign: `digits` must be a non-empty
string of decimal digits whose value, with the sign `neg`, fits a 64-bit `int`. -/
def parseSigned (s : GoString) (neg : Bool) (digits : List Char) : Except NumError Int :=
  if digits = [] then Except.error ⟨s⟩
  else
    match parseDigits digits 0 with
    | none => Except.error ⟨s⟩
    | some n =>
      if neg then
        if n ≤ 2 ^ 63 then Except.ok (-(n : Int)) else Except.error ⟨s⟩
      else
        if n < 2 ^ 63 then Except.ok (n : Int) else Except.error ⟨s⟩

/-- The library function `strconv.Atoi(s)`: an optional sign `+` or `-`, then
decimal digits. -/
def Atoi (s : GoString) : Except NumError Int :=
  match s with
  | [] => Except.error ⟨s⟩
  | c :: r =>
    if c = '-' then parseSigned s true r
    else if c = '+' then parseSigned s false r
    else parseSigned s false (c :: r)

/-- The library function `strings.Split(s, ",")`: the substrings of `s` between
the commas, one more than there are commas. -/
def Split : GoString → List GoString
  | [] => [[]]
  | c :: cs =>
    if c = ',' then [] :: Split cs
    else
      match Split cs with
      | [] => [[c]]
      | p :: ps => (c :: p) :: ps

/-- The statement `*zooms = append(*zooms, zoom)`. -/
def appendZoom (zooms : Zooms) (zoom : Int) : Zooms :=
  some (zooms.getD [] ++ [zoom])

/-- The loop `for _, val := range strings.Split(value, ",")` of `Zooms.Set`
over the remaining values; the result is the returned error (`none` for `nil`)
and the receiver `*zooms` on return. -/
def setLoop : List GoString → Zooms → Option NumError × Zooms
  | [], zooms => (none, zooms)
  | val :: rest, zooms =>
    match Atoi val with
    | Except.error err => (some err, zooms)
    | Except.ok zoom => setLoop rest (appendZoom zooms zoom)

/-- Set is the method to set the flag value, part of the flag.Value interface.
Converts comma-separated values (string in "int,int,int,(...)" format) to Zooms
type. -/
def Zooms.Set (zooms : Zooms) (value : GoString) : Option NumError × Zooms :=
  setLoop (Split value) zooms

/-! ### Reference definitions: decimal representations -/

/-- The character of the decimal digit `d`. -/
def digitChar (d : Nat) : Char := Char.ofNat (48 + d)

/-- The decimal representation of a natural number, without leading zeros. -/
def natDecimal (n : Nat) : GoString :=
  if n = 0 then ['0'] else (Nat.digits 10 n).reverse.map digitChar

/-- The decimal representation of an integer, as `strconv.Itoa` writes it. -/
def decimal : Int → GoString
  | Int.ofNat n => natDecimal n
  | Int.negSucc n => '-' :: natDecimal (n + 1)

/-- The strings of a list joined by commas, as `strings.Join(l, ",")`. -/
def joinComma : List GoString → GoString
  | [] => []
  | [s] => s
  | s :: t :: rest => s ++ ',' :: joinComma (t :: rest)

end Downloader

/-! ## Theorems -/

namespace Mercantile

/-! ### Conversions -/

theorem toInt_intCast (k : Int) : toInt (k : ℝ) = k := by
  unfold toInt
  split <;> simp

theorem toInt_goFloor (x : ℝ) : toInt (goFloor x) = ⌊x⌋ := by
  unfold goFloor
  exact toInt_intCast _

theorem toInt_le (x : ℝ) (k : Int) (h : k < toInt x) (hk : 0 ≤ k) : (k : ℝ) + 1 ≤ x := by
  unfold toInt at h
  split at h
  · have h1 : k + 1 ≤ ⌊x⌋ := h
    have h2 : ((k + 1 : Int) : ℝ) ≤ x := Int.le_floor.mp h1
    push_cast at h2
    exact h2
  · rename_i hx
    push_neg at hx
    have h1 : ⌈x⌉ ≤ 0 := Int.ceil_le.mpr (by simpa using hx.le)
    omega

theorem pow2_of_nonneg (z : Int) (hz : 0 ≤ z) : pow2 z = (((2 : Int) ^ z.toNat : Int) : ℝ) := by
  unfold pow2
  obtain ⟨n, rfl⟩ := Int.eq_ofNat_of_zero_le hz
  simp

theorem toInt_min_pow2 (a : Int) (z : Int) (hz : 0 ≤ z) :
    toInt (min ((a : ℝ) + 1.0) (pow2 z)) = min (a + 1) (2 ^ z.toNat) := by
  rw [pow2_of_nonneg z hz]
  have h : min ((a : ℝ) + 1.0) (((2 : Int) ^ z.toNat : Int) : ℝ)
      = ((min (a + 1) (2 ^ z.toNat) : Int) : ℝ) := by
    push_cast
    norm_num
  rw [h, toInt_intCast]

/-! ### The list of an integer interval -/

theorem ascending_of_le (lo hi : Int) (h : hi ≤ lo) : ascending lo hi = [] := by
  unfold ascending
  have : (hi - lo).toNat = 0 := by omega
  simp [this]

theorem ascending_of_lt (lo hi : Int) (h : lo < hi) :
    ascending lo hi = lo :: ascending (lo + 1) hi := by
  unfold ascending
  have : (hi - lo).toNat = (hi - (lo + 1)).toNat + 1 := by omega
  rw [this, List.range_succ_eq_map]
  simp only [List.map_cons, List.map_map, Nat.cast_zero, add_zero, List.cons.injEq, true_and]
  apply List.map_congr_left
  intro k _
  simp only [Function.comp_apply, Nat.cast_succ]
  ring

theorem mem_ascending (lo hi x : Int) : x ∈ ascending lo hi ↔ lo ≤ x ∧ x < hi := by
  unfold ascending
  simp only [List.mem_map, List.mem_range]
  constructor
  · rintro ⟨k, hk, rfl⟩
    omega
  · rintro ⟨h1, h2⟩
    exact ⟨(x - lo).toNat, by omega, by omega⟩

/-! ### The loops of `Tiles` as lists -/

theorem tilesLoopJ_eq (options : List PolygonOption) (ll : TileID) (z i : Int) :
    ∀ (n : Nat) (j : Int) (tiles : List TileID),
      (toInt (min ((ll.Y : ℝ) + 1.0) (pow2 z)) - j).toNat = n →
      tilesLoopJ options ll z i j tiles
        = tiles ++ ((ascending j (toInt (min ((ll.Y : ℝ) + 1.0) (pow2 z)))).map
            fun y => (⟨i, y, z⟩ : TileID)).filter fun t => decide (¬ skipped options t) := by
  intro n
  induction n with
  | zero =>
    intro j tiles h
    rw [tilesLoopJ]
    have hj : ¬ j < toInt (min ((ll.Y : ℝ) + 1.0) (pow2 z)) := by omega
    rw [if_neg hj, ascending_of_le _ _ (by omega)]
    simp
  | succ n ih =>
    intro j tiles h
    rw [tilesLoopJ]
    have hj : j < toInt (min ((ll.Y : ℝ) + 1.0) (pow2 z)) := by omega
    rw [if_pos hj, ascending_of_lt _ _ hj]
    by_cases hs : skipped options ⟨i, j, z⟩
    · simp only [hs, if_true]
      rw [ih (j + 1) tiles (by omega)]
      simp [hs]
    · simp only [hs, if_false]
      rw [ih (j + 1) (tiles ++ [(⟨i, j, z⟩ : TileID)]) (by omega)]
      simp [hs]

theorem tilesLoopI_eq (options : List PolygonOption) (ll ur : TileID) (z ury : Int) :
    ∀ (n : Nat) (i : Int) (tiles : List TileID),
      (toInt (min ((ur.X : ℝ) + 1.0) (pow2 z)) - i).toNat = n →
      tilesLoopI options ll ur z ury i tiles
        = tiles ++ ((ascending i (toInt (min ((ur.X : ℝ) + 1.0) (pow2 z)))).flatMap fun x =>
            (ascending ury (toInt (min ((ll.Y : ℝ) + 1.0) (pow2 z)))).map
              fun y => (⟨x, y, z⟩ : TileID)).filter fun t => decide (¬ skipped options t) := by
  intro n
  induction n with
  | zero =>
    intro i tiles h
    rw [tilesLoopI]
    have hi : ¬ i < toInt (min ((ur.X : ℝ) + 1.0) (pow2 z)) := by omega
    rw [if_neg hi, ascending_of_le _ _ (by omega)]
    simp
  | succ n ih =>
    intro i tiles h
    rw [tilesLoopI]
    have hi : i < toInt (min ((ur.X : ℝ) + 1.0) (pow2 z)) := by omega
    rw [if_pos hi, ascending_of_lt _ _ hi, ih (i + 1) _ (by omega),
      tilesLoopJ_eq options ll z i _ ury tiles rfl]
    simp

theorem tilesZoom_eq (options : List PolygonOption) (w s e n : ℝ) (tiles : List TileID)
    (z : Int) :
    tilesZoom options w s e n tiles z = tiles ++ loopTiles options (Tile w s z) (Tile e n z) z := by
  unfold tilesZoom loopTiles
  exact tilesLoopI_eq options _ _ z _ _ _ tiles rfl

theorem foldl_tilesZoom (options : List PolygonOption) (w s e n : ℝ) (zooms : List Int) :
    ∀ tiles : List TileID,
      zooms.foldl (tilesZoom options w s e n) tiles
        = tiles ++ zooms.flatMap fun z => loopTiles options (Tile w s z) (Tile e n z) z := by
  induction zooms with
  | nil => intro tiles; simp
  | cons z zs ih =>
    intro tiles
    rw [List.foldl_cons, ih, tilesZoom_eq]
    simp

theorem tilesBbox_eq (zooms : List Int) (options : List PolygonOption) (tiles : List TileID)
    (bbox : SubBox) :
    tilesBbox zooms options tiles bbox
      = tiles ++ zooms.flatMap fun z =>
          loopTiles options (Tile (clampBbox bbox).west (clampBbox bbox).south z)
            (Tile (clampBbox bbox).east (clampBbox bbox).north z) z := by
  unfold tilesBbox
  exact foldl_tilesZoom options _ _ _ _ zooms tiles

theorem foldl_tilesBbox (zooms : List Int) (options : List PolygonOption)
    (bboxes : List SubBox) :
    ∀ tiles : List TileID,
      bboxes.foldl (tilesBbox zooms options) tiles
        = tiles ++ bboxes.flatMap fun bbox => zooms.flatMap fun z =>
            loopTiles options (Tile (clampBbox bbox).west (clampBbox bbox).south z)
              (Tile (clampBbox bbox).east (clampBbox bbox).north z) z := by
  induction bboxes with
  | nil => intro tiles; simp
  | cons b bs ih =>
    intro tiles
    rw [List.foldl_cons, ih, tilesBbox_eq]
    simp

/-- The slice `Tiles` returns, as a concatenation of the blocks of its loops. -/
theorem Tiles_eq_flatMap (bboxes : List SubBox) (zooms : List Int)
    (options : List PolygonOption) :
    Tiles bboxes zooms options
      = bboxes.flatMap fun bbox => zooms.flatMap fun z =>
          loopTiles options (Tile (clampBbox bbox).west (clampBbox bbox).south z)
            (Tile (clampBbox bbox).east (clampBbox bbox).north z) z := by
  unfold Tiles
  rw [foldl_tilesBbox]
  simp

theorem loopTiles_nil (ll ur : TileID) (z : Int) :
    loopTiles [] ll ur z
      = (ascending (if ll.X < 0 then 0 else ll.X)
          (toInt (min ((ur.X : ℝ) + 1.0) (pow2 z)))).flatMap fun x =>
        (ascending (if ur.Y < 0 then 0 else ur.Y)
          (toInt (min ((ll.Y : ℝ) + 1.0) (pow2 z)))).map fun y => (⟨x, y, z⟩ : TileID) := by
  unfold loopTiles
  simp [skipped]

theorem mem_loopTiles_nil (ll ur : TileID) (z : Int) (t : TileID) :
    t ∈ loopTiles [] ll ur z ↔
      t.Z = z ∧ (if ll.X < 0 then 0 else ll.X) ≤ t.X
        ∧ t.X < toInt (min ((ur.X : ℝ) + 1.0) (pow2 z))
        ∧ (if ur.Y < 0 then 0 else ur.Y) ≤ t.Y
        ∧ t.Y < toInt (min ((ll.Y : ℝ) + 1.0) (pow2 z)) := by
  rw [loopTiles_nil]
  simp only [List.mem_flatMap, List.mem_map, mem_ascending]
  constructor
  · rintro ⟨x, ⟨hx1, hx2⟩, y, ⟨hy1, hy2⟩, rfl⟩
    exact ⟨rfl, hx1, hx2, hy1, hy2⟩
  · rintro ⟨hz, hx1, hx2, hy1, hy2⟩
    refine ⟨t.X, ⟨hx1, hx2⟩, t.Y, ⟨hy1, hy2⟩, ?_⟩
    cases t
    simp_all

theorem clampBbox_of_bounds (west south east north : ℝ) (hw : -180 ≤ west) (he : east ≤ 180)
    (hs : -85.051129 ≤ south) (hn : north ≤ 85.051129) :
    clampBbox ⟨west, south, east, north⟩ = ⟨west, south, east, north⟩ := by
  unfold clampBbox
  have h1 : max (-180.0) west = west := max_eq_right (by norm_num; linarith)
  have h2 : max (-85.051129) south = south := max_eq_right hs
  have h3 : min 180.0 east = east := min_eq_right (by norm_num; linarith)
  have h4 : min 85.051129 north = north := min_eq_right hn
  simp only [h1, h2, h3, h4]

/-! ### The tile of a point -/

theorem pow2_pos (z : Int) : 0 < pow2 z := by
  unfold pow2
  positivity

theorem Tile_Z (lng lat : ℝ) (zoom : Int) : (Tile lng lat zoom).Z = zoom := rfl

theorem Tile_X (lng lat : ℝ) (zoom : Int) :
    (Tile lng lat zoom).X = ⌊(lng + 180) / 360 * pow2 zoom⌋ := by
  unfold Tile
  simp only [toInt_goFloor]
  norm_num

theorem Tile_Y (lng lat : ℝ) (zoom : Int) :
    (Tile lng lat zoom).Y
      = ⌊(1 - Real.log (Real.tan (lat * (Real.pi / 180))
            + 1 / Real.cos (lat * (Real.pi / 180))) / Real.pi) / 2 * pow2 zoom⌋ := by
  unfold Tile
  simp only [toInt_goFloor]
  norm_num

theorem log_tan_add_sec (φ : ℝ) (h : 0 < Real.cos φ) :
    Real.log (Real.tan φ + 1 / Real.cos φ) = Real.arsinh (Real.tan φ) := by
  unfold Real.arsinh
  rw [← Real.inv_sqrt_one_add_tan_sq h]
  simp

theorem radians_mem_Ioo (lat : ℝ) (h1 : -90 < lat) (h2 : lat < 90) :
    lat * (Real.pi / 180) ∈ Set.Ioo (-(Real.pi / 2)) (Real.pi / 2) := by
  have hpi := Real.pi_pos
  constructor <;> nlinarith

theorem cos_radians_pos (lat : ℝ) (h1 : -90 < lat) (h2 : lat < 90) :
    0 < Real.cos (lat * (Real.pi / 180)) :=
  Real.cos_pos_of_mem_Ioo (radians_mem_Ioo lat h1 h2)

/-- Inside the open interval of latitudes the row of a point is the floor of
the Mercator ordinate `arsinh (tan φ)`, rescaled. -/
theorem Tile_Y_arsinh (lng lat : ℝ) (zoom : Int) (h1 : -90 < lat) (h2 : lat < 90) :
    (Tile lng lat zoom).Y
      = ⌊(1 - Real.arsinh (Real.tan (lat * (Real.pi / 180))) / Real.pi) / 2 * pow2 zoom⌋ := by
  rw [Tile_Y, log_tan_add_sec _ (cos_radians_pos lat h1 h2)]

theorem Tile_X_mono (lng lng2 lat lat2 : ℝ) (zoom : Int) (h : lng ≤ lng2) :
    (Tile lng lat zoom).X ≤ (Tile lng2 lat2 zoom).X := by
  rw [Tile_X, Tile_X]
  apply Int.floor_le_floor
  have := pow2_pos zoom
  apply mul_le_mul_of_nonneg_right _ this.le
  linarith

theorem arsinh_tan_mono (lat lat2 : ℝ) (h1 : -90 < lat) (h : lat ≤ lat2) (h2 : lat2 < 90) :
    Real.arsinh (Real.tan (lat * (Real.pi / 180)))
      ≤ Real.arsinh (Real.tan (lat2 * (Real.pi / 180))) := by
  rw [Real.arsinh_le_arsinh]
  apply Real.strictMonoOn_tan.monotoneOn (radians_mem_Ioo lat h1 (by linarith))
    (radians_mem_Ioo lat2 (by linarith) h2)
  have hpi := Real.pi_pos
  apply mul_le_mul_of_nonneg_right h
  positivity

theorem Tile_Y_anti (lng lng2 lat lat2 : ℝ) (zoom : Int) (h1 : -90 < lat) (h : lat ≤ lat2)
    (h2 : lat2 < 90) : (Tile lng2 lat2 zoom).Y ≤ (Tile lng lat zoom).Y := by
  rw [Tile_Y_arsinh _ _ _ h1 (by linarith), Tile_Y_arsinh _ _ _ (by linarith) h2]
  apply Int.floor_le_floor
  have := pow2_pos zoom
  apply mul_le_mul_of_nonneg_right _ this.le
  have hm := arsinh_tan_mono lat lat2 h1 h h2
  have hpi := Real.pi_pos
  have : Real.arsinh (Real.tan (lat * (Real.pi / 180))) / Real.pi
      ≤ Real.arsinh (Real.tan (lat2 * (Real.pi / 180))) / Real.pi :=
    div_le_div_of_nonneg_right hm hpi.le
  linarith

/-! ### Evaluation at the origin -/

theorem Tile_origin : Tile 0 0 0 = ⟨0, 0, 0⟩ := by
  have hx : (Tile 0 0 0).X = 0 := by
    rw [Tile_X]
    norm_num [pow2]
  have hy : (Tile 0 0 0).Y = 0 := by
    rw [Tile_Y]
    norm_num [pow2]
  have hz : (Tile 0 0 0).Z = 0 := rfl
  cases h : Tile 0 0 0
  simp_all

theorem Tiles_single (bbox : SubBox) (z : Int) (options : List PolygonOption) :
    Tiles [bbox] [z] options
      = loopTiles options (Tile (clampBbox bbox).west (clampBbox bbox).south z)
          (Tile (clampBbox bbox).east (clampBbox bbox).north z) z := by
  rw [Tiles_eq_flatMap]
  simp

theorem TilesFromBbox_origin : TilesFromBbox 0 0 0 0 [0] = [⟨0, 0, 0⟩] := by
  unfold TilesFromBbox
  rw [if_neg (lt_irrefl _), Tiles_single,
    clampBbox_of_bounds 0 0 0 0 (by norm_num) (by norm_num) (by norm_num) (by norm_num)]
  simp only [Tile_origin, loopTiles_nil, toInt_min_pow2 0 0 le_rfl]
  decide

/-! ### The enumeration -/

theorem loopTiles_nil_eq_specBlock (bbox : SubBox) (z : Int) (hz : 0 ≤ z) :
    loopTiles [] (Tile (clampBbox bbox).west (clampBbox bbox).south z)
        (Tile (clampBbox bbox).east (clampBbox bbox).north z) z
      = specBlock bbox z := by
  have h1 : ∀ a : Int, (if a < 0 then 0 else a) = max a 0 := by
    intro a
    split <;> omega
  have h180 : (180.0 : ℝ) = 180 := by norm_num
  rw [loopTiles_nil]
  unfold specBlock clampBbox
  simp only [toInt_min_pow2 _ z hz, h1, h180]

/-- C1: for every list of sub-boxes and every list of zooms `z ≥ 0`, `Tiles`
without a polygon option returns the concatenation, over the sub-boxes in input
order and inside each sub-box over the zooms in input order, of the block of
tiles `{x, y, z}` with `x` ascending in `[max(ll.X, 0), min(ur.X + 1, 2^z))` and,
for each `x`, `y` ascending in `[max(ur.Y, 0), min(ll.Y + 1, 2^z))`, where `ll`
and `ur` are the tiles of the south-west and north-east corners as `Tiles` clamps
them (`w = max(-180, west)`, `s = max(-85.051129, south)`, `e = min(180, east)`,
`n = min(85.051129, north)`). -/
theorem Tiles_eq_specTiles (bboxes : List SubBox) (zooms : List Int)
    (hz : ∀ z ∈ zooms, 0 ≤ z) : Tiles bboxes zooms [] = specTiles bboxes zooms := by
  rw [Tiles_eq_flatMap]
  unfold specTiles
  apply List.flatMap_congr
  intro bbox _
  apply List.flatMap_congr
  intro z hzm
  exact loopTiles_nil_eq_specBlock bbox z (hz z hzm)

theorem Tiles_eq_specTiles_witness :
    (∀ z ∈ [(0 : Int), 3], 0 ≤ z)
      ∧ Tiles [⟨-1, -1, 1, 1⟩, ⟨170, -10, 180, 10⟩] [0, 3] []
          = specTiles [⟨-1, -1, 1, 1⟩, ⟨170, -10, 180, 10⟩] [0, 3] :=
  ⟨by decide, Tiles_eq_specTiles _ _ (by decide)⟩

theorem mem_Tiles_valid (bboxes : List SubBox) (zooms : List Int) (t : TileID)
    (ht : t ∈ Tiles bboxes zooms []) :
    0 ≤ t.X ∧ (t.X : ℝ) < (2 : ℝ) ^ t.Z ∧ 0 ≤ t.Y ∧ (t.Y : ℝ) < (2 : ℝ) ^ t.Z
      ∧ t.Z ∈ zooms := by
  rw [Tiles_eq_flatMap] at ht
  simp only [List.mem_flatMap] at ht
  obtain ⟨bbox, _, z, hz, ht⟩ := ht
  rw [mem_loopTiles_nil] at ht
  obtain ⟨hZ, hx1, hx2, hy1, hy2⟩ := ht
  have hx0 : 0 ≤ t.X := by
    split at hx1 <;> omega
  have hy0 : 0 ≤ t.Y := by
    split at hy1 <;> omega
  have hx3 := toInt_le _ _ hx2 hx0
  have hy3 := toInt_le _ _ hy2 hy0
  have hx4 := le_trans hx3 (min_le_right _ _)
  have hy4 := le_trans hy3 (min_le_right _ _)
  rw [hZ]
  unfold pow2 at hx4 hy4
  refine ⟨hx0, by linarith, hy0, by linarith, hz⟩

/-- C2: for every bounding box, unclamped and antimeridian-crossing ones
included, and every list of zooms, every tile returned by `TilesFromBbox` has
`0 ≤ X < 2^Z` and `0 ≤ Y < 2^Z`, and its `Z` is one of the requested zooms. -/
theorem TilesFromBbox_valid (west south east north : ℝ) (zooms : List Int) (t : TileID)
    (ht : t ∈ TilesFromBbox west south east north zooms) :
    0 ≤ t.X ∧ (t.X : ℝ) < (2 : ℝ) ^ t.Z ∧ 0 ≤ t.Y ∧ (t.Y : ℝ) < (2 : ℝ) ^ t.Z
      ∧ t.Z ∈ zooms :=
  mem_Tiles_valid _ zooms t ht

theorem TilesFromBbox_valid_witness :
    (⟨0, 0, 0⟩ : TileID) ∈ TilesFromBbox 0 0 0 0 [0]
      ∧ (0 ≤ (0 : Int) ∧ ((0 : Int) : ℝ) < (2 : ℝ) ^ (0 : Int) ∧ 0 ≤ (0 : Int)
          ∧ ((0 : Int) : ℝ) < (2 : ℝ) ^ (0 : Int) ∧ (0 : Int) ∈ [(0 : Int)]) :=
  ⟨by rw [TilesFromBbox_origin]; exact List.mem_singleton_self _,
    TilesFromBbox_valid 0 0 0 0 [0] ⟨0, 0, 0⟩
      (by rw [TilesFromBbox_origin]; exact List.mem_singleton_self _)⟩

/-- C3: coverage. For every box with `-180 ≤ west ≤ east ≤ 180` and
`-85.051129 ≤ south ≤ north ≤ 85.051129`, every zoom `z ≥ 0` and every point
`(lng, lat)` of the box, if the tile `Tile(lng, lat, z)` of the point has valid
indices then it is a member of `TilesFromBbox(west, south, east, north, [z])`. -/
theorem TilesFromBbox_covers (west south east north : ℝ) (z : Int) (lng lat : ℝ)
    (hw : -180 ≤ west) (hwe : west ≤ east) (he : east ≤ 180)
    (hs : -85.051129 ≤ south) (_hsn : south ≤ north) (hn : north ≤ 85.051129)
    (hz : 0 ≤ z) (hlng : west ≤ lng ∧ lng ≤ east) (hlat : south ≤ lat ∧ lat ≤ north)
    (hX : 0 ≤ (Tile lng lat z).X ∧ ((Tile lng lat z).X : ℝ) < (2 : ℝ) ^ z)
    (hY : 0 ≤ (Tile lng lat z).Y ∧ ((Tile lng lat z).Y : ℝ) < (2 : ℝ) ^ z) :
    Tile lng lat z ∈ TilesFromBbox west south east north [z] := by
  unfold TilesFromBbox
  rw [if_neg (not_lt.mpr hwe), Tiles_single, clampBbox_of_bounds west south east north hw he hs hn,
    mem_loopTiles_nil]
  have hs90 : -90 < south := by linarith
  have hn90 : north < 90 := by linarith
  have hxl := Tile_X_mono west lng south lat z hlng.1
  have hxu := Tile_X_mono lng east lat north z hlng.2
  have hyl := Tile_Y_anti west lng south lat z hs90 hlat.1 (by linarith)
  have hyu := Tile_Y_anti lng east lat north z (by linarith) hlat.2 hn90
  have hp : (2 : ℝ) ^ z = (((2 : Int) ^ z.toNat : Int) : ℝ) := pow2_of_nonneg z hz
  have hX2 : (Tile lng lat z).X < 2 ^ z.toNat := by
    have := hX.2
    rw [hp] at this
    exact_mod_cast this
  have hY2 : (Tile lng lat z).Y < 2 ^ z.toNat := by
    have := hY.2
    rw [hp] at this
    exact_mod_cast this
  rw [toInt_min_pow2 _ z hz, toInt_min_pow2 _ z hz]
  dsimp only
  refine ⟨rfl, ?_, ?_, ?_, ?_⟩
  · split <;> omega
  · exact lt_min (by omega) hX2
  · split <;> omega
  · exact lt_min (by omega) hY2

theorem TilesFromBbox_covers_witness :
    Tile 0 0 0 ∈ TilesFromBbox (-10) (-10) 10 10 [0] :=
  TilesFromBbox_covers (-10) (-10) 10 10 0 0 0 (by norm_num) (by norm_num) (by norm_num)
    (by norm_num) (by norm_num) (by norm_num) le_rfl (by norm_num) (by norm_num)
    (by rw [Tile_origin]; norm_num) (by rw [Tile_origin]; norm_num)

theorem Tiles_append (b1 b2 : List SubBox) (zooms : List Int) (options : List PolygonOption) :
    Tiles (b1 ++ b2) zooms options = Tiles b1 zooms options ++ Tiles b2 zooms options := by
  simp only [Tiles_eq_flatMap, List.flatMap_append]

/-- C4: antimeridian split. When `west > east`, `TilesFromBbox` returns the
tiles of the sub-box `(-180, south, east, north)` followed by the tiles of the
sub-box `(west, south, 180, north)`; when `west ≤ east` it returns the tiles of
the single sub-box `(west, south, east, north)`. -/
theorem TilesFromBbox_split (west south east north : ℝ) (zooms : List Int) :
    TilesFromBbox west south east north zooms
      = if west > east then
          Tiles [⟨-180, south, east, north⟩] zooms []
            ++ Tiles [⟨west, south, 180, north⟩] zooms []
        else Tiles [⟨west, south, east, north⟩] zooms [] := by
  unfold TilesFromBbox
  have h180 : (180.0 : ℝ) = 180 := by norm_num
  split
  · rw [← Tiles_append, h180]
    rfl
  · rfl

/-! ### Clamping -/

/-- C8, at an input: the sub-box `(200, 0, 210, 10)` reaches the tile-index
computation with `w = 200`, which is not at most `180`. -/
theorem clampBbox_west_not_le :
    (clampBbox ⟨200, 0, 210, 10⟩).west = 200 ∧ ¬ (clampBbox ⟨200, 0, 210, 10⟩).west ≤ 180 := by
  have h : (clampBbox ⟨200, 0, 210, 10⟩).west = 200 := by
    unfold clampBbox
    norm_num
  rw [h]
  norm_num

/-- C8, amended: for every input sub-box, in `Tiles` and in the legacy `Tiles`
alike, the coordinates `(w, s, e, n)` that reach the tile-index computation
satisfy `-180 ≤ w`, `-85.051129 ≤ s`, `e ≤ 180` and `n ≤ 85.051129`; each of the
four other bounds holds exactly when the input coordinate already satisfies it
(`w ≤ 180` iff `west ≤ 180`, `s ≤ 85.051129` iff `south ≤ 85.051129`,
`-180 ≤ e` iff `-180 ≤ east`, `-85.051129 ≤ n` iff `-85.051129 ≤ north`). -/
theorem clampBbox_bounds (bbox : SubBox) :
    (-180 ≤ (clampBbox bbox).west ∧ -85.051129 ≤ (clampBbox bbox).south
      ∧ (clampBbox bbox).east ≤ 180 ∧ (clampBbox bbox).north ≤ 85.051129
      ∧ ((clampBbox bbox).west ≤ 180 ↔ bbox.west ≤ 180)
      ∧ ((clampBbox bbox).south ≤ 85.051129 ↔ bbox.south ≤ 85.051129)
      ∧ (-180 ≤ (clampBbox bbox).east ↔ -180 ≤ bbox.east)
      ∧ (-85.051129 ≤ (clampBbox bbox).north ↔ -85.051129 ≤ bbox.north))
    ∧ PkgMercantile.clampBbox bbox = clampBbox bbox := by
  have h180 : (180.0 : ℝ) = 180 := by norm_num
  refine ⟨?_, rfl⟩
  unfold clampBbox
  simp only [h180]
  refine ⟨le_max_left _ _, le_max_left _ _, min_le_left _ _, min_le_left _ _, ?_, ?_, ?_, ?_⟩
  · rw [max_le_iff]
    constructor
    · exact fun h => h.2
    · exact fun h => ⟨by norm_num, h⟩
  · rw [max_le_iff]
    constructor
    · exact fun h => h.2
    · exact fun h => ⟨by norm_num, h⟩
  · rw [le_min_iff]
    constructor
    · exact fun h => h.2
    · exact fun h => ⟨by norm_num, h⟩
  · rw [le_min_iff]
    constructor
    · exact fun h => h.2
    · exact fun h => ⟨by norm_num, h⟩

/-! ### The extent of a ring -/

/-- C9, at an input: for the closed triangle `(2,0), (2,2), (0,0), (2,0)` the
loop of `TilesFromGeoJSON` ends with `west = 2`, although the vertex `(0,0)` of
the ring has the smaller longitude `0`; south, east and north are `0`, `2`, `2`. -/
theorem ringExtent_triangle :
    ringExtent [(2, 0), (2, 2), (0, 0), (2, 0)] = ⟨2, 0, 2, 2⟩
      ∧ ((0 : ℝ), (0 : ℝ)) ∈ [((2 : ℝ), (0 : ℝ)), (2, 2), (0, 0), (2, 0)]
      ∧ ((0 : ℝ), (0 : ℝ)).1 < (ringExtent [(2, 0), (2, 2), (0, 0), (2, 0)]).west := by
  have h : ringExtent [(2, 0), (2, 2), (0, 0), (2, 0)] = ⟨2, 0, 2, 2⟩ := by
    unfold ringExtent
    simp only [List.foldl_cons, List.foldl_nil, extentStep]
    norm_num
  rw [h]
  refine ⟨rfl, by simp, by norm_num⟩

/-! ### The polygon filter -/

theorem loopTiles_option (f : PolygonOption) (ll ur : TileID) (z : Int) :
    loopTiles [f] ll ur z = (loopTiles [] ll ur z).filter fun t => decide (f t ≠ 0) := by
  unfold loopTiles
  simp [skipped]

/-- C10: for every list of sub-boxes, every list of zooms and every area
function `f` given as the single polygon option, `Tiles(bboxes, zooms, f)` is
`Tiles(bboxes, zooms)` with exactly the tiles `t` having `f(t) = 0` removed, the
order of the others unchanged; so a tile is returned if and only if it is a
candidate tile and `f(t)` is not zero. -/
theorem Tiles_option_eq_filter (bboxes : List SubBox) (zooms : List Int) (f : PolygonOption) :
    Tiles bboxes zooms [f] = (Tiles bboxes zooms []).filter (fun t => decide (f t ≠ 0))
      ∧ ∀ t : TileID, t ∈ Tiles bboxes zooms [f] ↔ t ∈ Tiles bboxes zooms [] ∧ f t ≠ 0 := by
  have h : Tiles bboxes zooms [f] = (Tiles bboxes zooms []).filter (fun t => decide (f t ≠ 0)) := by
    simp only [Tiles_eq_flatMap, List.filter_flatMap, loopTiles_option]
  refine ⟨h, ?_⟩
  intro t
  rw [h, List.mem_filter]
  simp

/-! ### The Mercator ordinate at 85 degrees -/

theorem exp_pi_gt : (23 : ℝ) < Real.exp Real.pi := by
  have he1 := Real.exp_one_gt_d9
  have hq : 1 + (0.1415 : ℝ) + 0.1415 ^ 2 / 2 ≤ Real.exp 0.1415 :=
    Real.quadratic_le_exp_of_nonneg (by norm_num)
  have hsplit : Real.exp 3.1415 = Real.exp 1 * Real.exp 1 * Real.exp 1 * Real.exp 0.1415 := by
    rw [← Real.exp_add, ← Real.exp_add, ← Real.exp_add]
    norm_num
  have hmono : Real.exp 3.1415 < Real.exp Real.pi := Real.exp_lt_exp.mpr Real.pi_gt_d4
  have h1 : (2.7182818283 : ℝ) * 2.7182818283 * 2.7182818283 * (1 + 0.1415 + 0.1415 ^ 2 / 2)
      ≤ Real.exp 1 * Real.exp 1 * Real.exp 1 * Real.exp 0.1415 := by
    have h0 : (0 : ℝ) ≤ 2.7182818283 := by norm_num
    have := he1.le
    gcongr
  have h2 : (23 : ℝ) < 2.7182818283 * 2.7182818283 * 2.7182818283 * (1 + 0.1415 + 0.1415 ^ 2 / 2) := by
    norm_num
  linarith

theorem tan_85_lt : Real.tan (85 * (Real.pi / 180)) < 36 / Real.pi := by
  have hpi := Real.pi_pos
  have h : 85 * (Real.pi / 180) = Real.pi / 2 - Real.pi / 36 := by ring
  rw [h, Real.tan_pi_div_two_sub]
  have hx : Real.pi / 36 < Real.tan (Real.pi / 36) :=
    Real.lt_tan (by positivity) (by linarith)
  have hpos : 0 < Real.pi / 36 := by positivity
  rw [show (36 : ℝ) / Real.pi = (Real.pi / 36)⁻¹ by field_simp]
  exact inv_strictAnti₀ hpos hx

theorem sinh_pi_gt : 36 / Real.pi < Real.sinh Real.pi := by
  have h1 := exp_pi_gt
  have h2 : Real.exp (-Real.pi) < 1 / 23 := by
    rw [Real.exp_neg, one_div]
    exact inv_strictAnti₀ (by norm_num) h1
  have h3 : 36 / Real.pi < 36 / 3.1415 := by
    apply div_lt_div_of_pos_left (by norm_num) (by norm_num) Real.pi_gt_d4
  rw [Real.sinh_eq]
  norm_num at h3 h2 ⊢
  linarith

theorem arsinh_tan_85_lt_pi : Real.arsinh (Real.tan (85 * (Real.pi / 180))) < Real.pi := by
  rw [← Real.sinh_lt_sinh, Real.sinh_arsinh]
  exact lt_trans tan_85_lt sinh_pi_gt

theorem tan_85_gt : (10 : ℝ) < Real.tan (85 * (Real.pi / 180)) := by
  have hpi := Real.pi_pos
  have hpi4 := Real.pi_lt_d4
  have h : 85 * (Real.pi / 180) = Real.pi / 2 - Real.pi / 36 := by ring
  rw [h, Real.tan_pi_div_two_sub]
  have hx0 : 0 < Real.pi / 36 := by positivity
  have hx1 : Real.pi / 36 < 0.09 := by linarith
  have hs : Real.sin (Real.pi / 36) < Real.pi / 36 := Real.sin_lt hx0
  have hc : 1 - (Real.pi / 36) ^ 2 / 2 ≤ Real.cos (Real.pi / 36) :=
    Real.one_sub_sq_div_two_le_cos
  have hc2 : (0.99 : ℝ) < Real.cos (Real.pi / 36) := by nlinarith
  have ht : Real.tan (Real.pi / 36) < 1 / 10 := by
    rw [Real.tan_eq_sin_div_cos, div_lt_iff₀ (by linarith)]
    nlinarith
  have htpos : 0 < Real.tan (Real.pi / 36) := Real.tan_pos_of_pos_of_lt_pi_div_two hx0 (by linarith)
  rw [show (10 : ℝ) = (1 / 10)⁻¹ by norm_num]
  exact inv_strictAnti₀ htpos ht

theorem sinh_half_pi_lt : Real.sinh (Real.pi / 2) < 10 := by
  have he := Real.exp_one_lt_d9
  have h2 : Real.exp (Real.pi / 2) < Real.exp 2 := Real.exp_lt_exp.mpr (by linarith [Real.pi_lt_four])
  have h3 : Real.exp 2 = Real.exp 1 * Real.exp 1 := by
    rw [← Real.exp_add]; norm_num
  have h4 : Real.exp 1 * Real.exp 1 < 2.7182818286 * 2.7182818286 := by
    have := Real.exp_pos 1
    nlinarith
  have h5 := Real.exp_pos (-(Real.pi / 2))
  rw [Real.sinh_eq]
  norm_num at h4 ⊢
  linarith

theorem arsinh_tan_85_gt : Real.pi / 2 < Real.arsinh (Real.tan (85 * (Real.pi / 180))) := by
  rw [← Real.sinh_lt_sinh, Real.sinh_arsinh]
  exact lt_trans sinh_half_pi_lt tan_85_gt

theorem arsinh_tan_neg (lat : ℝ) :
    Real.arsinh (Real.tan (-lat * (Real.pi / 180)))
      = -Real.arsinh (Real.tan (lat * (Real.pi / 180))) := by
  rw [neg_mul, Real.tan_neg, Real.arsinh_neg]

theorem arsinh_tan_abs_lt_pi (lat : ℝ) (h1 : -85 ≤ lat) (h2 : lat ≤ 85) :
    -Real.pi < Real.arsinh (Real.tan (lat * (Real.pi / 180)))
      ∧ Real.arsinh (Real.tan (lat * (Real.pi / 180))) < Real.pi := by
  have hu := arsinh_tan_mono lat 85 (by linarith) h2 (by norm_num)
  have hl := arsinh_tan_mono (-85) lat (by norm_num) h1 (by linarith)
  rw [arsinh_tan_neg] at hl
  have hb := arsinh_tan_85_lt_pi
  constructor <;> linarith

/-! ### Round trip -/

theorem Tile_Ul (t : TileID) : Tile (Ul t).Lng (Ul t).Lat t.Z = t := by
  have hn := pow2_pos t.Z
  have hpi := Real.pi_pos
  have hx : (Tile (Ul t).Lng (Ul t).Lat t.Z).X = t.X := by
    rw [Tile_X]
    unfold Ul
    have : ((t.X : ℝ) / pow2 t.Z * 360.0 - 180.0 + 180) / 360 * pow2 t.Z = (t.X : ℝ) := by
      field_simp
      ring
    simp only [this, Int.floor_intCast]
  have hy : (Tile (Ul t).Lng (Ul t).Lat t.Z).Y = t.Y := by
    rw [Tile_Y]
    unfold Ul
    have hrad : 180.0 / Real.pi
          * Real.arctan (Real.sinh (Real.pi * (1 - 2 * (t.Y : ℝ) / pow2 t.Z)))
          * (Real.pi / 180)
        = Real.arctan (Real.sinh (Real.pi * (1 - 2 * (t.Y : ℝ) / pow2 t.Z))) := by
      field_simp
      ring
    simp only [hrad]
    rw [log_tan_add_sec _ (Real.cos_arctan_pos _), Real.tan_arctan, Real.arsinh_sinh]
    have : (1 - Real.pi * (1 - 2 * (t.Y : ℝ) / pow2 t.Z) / Real.pi) / 2 * pow2 t.Z
        = (t.Y : ℝ) := by
      field_simp
      ring
    simp only [this, Int.floor_intCast]
  have hz : (Tile (Ul t).Lng (Ul t).Lat t.Z).Z = t.Z := rfl
  cases h : Tile (Ul t).Lng (Ul t).Lat t.Z
  cases t
  simp_all

/-- C7: round trip. For every tile `{X, Y, Z}` with `Z ≥ 0`, `0 ≤ X < 2^Z` and
`0 ≤ Y < 2^Z`, the tile `Tile(p.Lng, p.Lat, Z)` of its upper-left corner
`p = Ul({X, Y, Z})` has zoom `Z` and indices within one unit of `X` and `Y`. -/
theorem Tile_Ul_roundtrip (X Y Z : Int) (_hZ : 0 ≤ Z)
    (_hX : 0 ≤ X ∧ (X : ℝ) < (2 : ℝ) ^ Z) (_hY : 0 ≤ Y ∧ (Y : ℝ) < (2 : ℝ) ^ Z) :
    (Tile (Ul ⟨X, Y, Z⟩).Lng (Ul ⟨X, Y, Z⟩).Lat Z).Z = Z
      ∧ |(Tile (Ul ⟨X, Y, Z⟩).Lng (Ul ⟨X, Y, Z⟩).Lat Z).X - X| ≤ 1
      ∧ |(Tile (Ul ⟨X, Y, Z⟩).Lng (Ul ⟨X, Y, Z⟩).Lat Z).Y - Y| ≤ 1 := by
  have h := Tile_Ul ⟨X, Y, Z⟩
  simp only at h
  rw [h]
  simp

theorem Tile_Ul_roundtrip_witness :
    (Tile (Ul ⟨1, 2, 2⟩).Lng (Ul ⟨1, 2, 2⟩).Lat 2).Z = 2
      ∧ |(Tile (Ul ⟨1, 2, 2⟩).Lng (Ul ⟨1, 2, 2⟩).Lat 2).X - 1| ≤ 1
      ∧ |(Tile (Ul ⟨1, 2, 2⟩).Lng (Ul ⟨1, 2, 2⟩).Lat 2).Y - 2| ≤ 1 :=
  Tile_Ul_roundtrip 1 2 2 (by decide) (by norm_num) (by norm_num)

/-! ### Whole-world boxes -/

theorem Tile_Y_zoom0 (lng lat : ℝ) (h1 : -85 ≤ lat) (h2 : lat ≤ 85) :
    (Tile lng lat 0).Y = 0 := by
  rw [Tile_Y_arsinh _ _ _ (by linarith) (by linarith), Int.floor_eq_iff]
  obtain ⟨ha, hb⟩ := arsinh_tan_abs_lt_pi lat h1 h2
  have hpi := Real.pi_pos
  have ha2 : -1 < Real.arsinh (Real.tan (lat * (Real.pi / 180))) / Real.pi := by
    rw [lt_div_iff₀ hpi]
    linarith
  have hb2 : Real.arsinh (Real.tan (lat * (Real.pi / 180))) / Real.pi < 1 := by
    rw [div_lt_iff₀ hpi]
    linarith
  have hp : pow2 0 = 1 := by simp [pow2]
  rw [hp]
  constructor <;> norm_num <;> linarith

theorem Tile_X_zoom0 (lng lat : ℝ) (h1 : -180 ≤ lng) (h2 : lng < 180) :
    (Tile lng lat 0).X = 0 := by
  rw [Tile_X, Int.floor_eq_iff]
  have hp : pow2 0 = 1 := by simp [pow2]
  rw [hp]
  constructor <;> norm_num <;> linarith

theorem Tile_X_nonneg (lng lat : ℝ) (z : Int) (h1 : -180 ≤ lng) : 0 ≤ (Tile lng lat z).X := by
  rw [Tile_X]
  apply Int.floor_nonneg.mpr
  have := pow2_pos z
  apply mul_nonneg _ this.le
  linarith

/-- C6: world-tile case. For every box with `-180 ≤ west ≤ east ≤ 180`,
`west < 180` and `-85 ≤ south ≤ north ≤ 85`, `TilesFromBbox` at the zoom list
`[0]` returns exactly the one-element list `[{0, 0, 0}]`. -/
theorem TilesFromBbox_zoom0 (west south east north : ℝ)
    (hw : -180 ≤ west) (hwe : west ≤ east) (he : east ≤ 180) (hw2 : west < 180)
    (hs : -85 ≤ south) (hsn : south ≤ north) (hn : north ≤ 85) :
    TilesFromBbox west south east north [0] = [⟨0, 0, 0⟩] := by
  unfold TilesFromBbox
  rw [if_neg (not_lt.mpr hwe), Tiles_single,
    clampBbox_of_bounds west south east north hw he (by linarith) (by linarith), loopTiles_nil]
  dsimp only
  rw [toInt_min_pow2 _ 0 le_rfl, toInt_min_pow2 _ 0 le_rfl,
    Tile_X_zoom0 west south hw hw2, Tile_Y_zoom0 west south hs (by linarith),
    Tile_Y_zoom0 east north (by linarith) hn]
  have hx := Tile_X_nonneg east north 0 (by linarith)
  have e1 : min ((Tile east north 0).X + 1) (2 ^ (0 : Int).toNat) = 1 := by
    simp only [Int.toNat_zero, pow_zero]
    omega
  rw [e1]
  decide

theorem TilesFromBbox_zoom0_witness : TilesFromBbox (-1) (-1) 1 1 [0] = [⟨0, 0, 0⟩] :=
  TilesFromBbox_zoom0 (-1) (-1) 1 1 (by norm_num) (by norm_num) (by norm_num) (by norm_num)
    (by norm_num) (by norm_num) (by norm_num)

theorem Tile_southwest_zoom2 : Tile (-180) (-85) 2 = ⟨0, 3, 2⟩ := by
  have hpi := Real.pi_pos
  have hp : pow2 2 = 4 := by norm_num [pow2]
  have ha := arsinh_tan_85_gt
  have hb := arsinh_tan_85_lt_pi
  have ha2 : 1 / 2 < Real.arsinh (Real.tan (85 * (Real.pi / 180))) / Real.pi := by
    rw [lt_div_iff₀ hpi]
    linarith
  have hb2 : Real.arsinh (Real.tan (85 * (Real.pi / 180))) / Real.pi < 1 := by
    rw [div_lt_iff₀ hpi]
    linarith
  have hx : (Tile (-180) (-85) 2).X = 0 := by
    rw [Tile_X]
    norm_num
  have hy : (Tile (-180) (-85) 2).Y = 3 := by
    rw [Tile_Y_arsinh _ _ _ (by norm_num) (by norm_num), arsinh_tan_neg, hp, Int.floor_eq_iff,
      neg_div]
    constructor <;> norm_num <;> linarith
  have hz : (Tile (-180) (-85) 2).Z = 2 := rfl
  cases h : Tile (-180) (-85) 2
  simp_all

theorem Tile_northeast_zoom2 : Tile 180 85 2 = ⟨4, 0, 2⟩ := by
  have hpi := Real.pi_pos
  have hp : pow2 2 = 4 := by norm_num [pow2]
  have ha := arsinh_tan_85_gt
  have hb := arsinh_tan_85_lt_pi
  have ha2 : 1 / 2 < Real.arsinh (Real.tan (85 * (Real.pi / 180))) / Real.pi := by
    rw [lt_div_iff₀ hpi]
    linarith
  have hb2 : Real.arsinh (Real.tan (85 * (Real.pi / 180))) / Real.pi < 1 := by
    rw [div_lt_iff₀ hpi]
    linarith
  have hx : (Tile 180 85 2).X = 4 := by
    rw [Tile_X, hp]
    norm_num
  have hy : (Tile 180 85 2).Y = 0 := by
    rw [Tile_Y_arsinh _ _ _ (by norm_num) (by norm_num), hp, Int.floor_eq_iff]
    constructor <;> norm_num <;> linarith
  have hz : (Tile 180 85 2).Z = 2 := rfl
  cases h : Tile 180 85 2
  simp_all

theorem world_zoom2_list :
    TilesFromBbox (-180) (-85) 180 85 [2]
      = [⟨0, 0, 2⟩, ⟨0, 1, 2⟩, ⟨0, 2, 2⟩, ⟨0, 3, 2⟩, ⟨1, 0, 2⟩, ⟨1, 1, 2⟩, ⟨1, 2, 2⟩, ⟨1, 3, 2⟩,
          ⟨2, 0, 2⟩, ⟨2, 1, 2⟩, ⟨2, 2, 2⟩, ⟨2, 3, 2⟩, ⟨3, 0, 2⟩, ⟨3, 1, 2⟩, ⟨3, 2, 2⟩, ⟨3, 3, 2⟩] := by
  unfold TilesFromBbox
  rw [if_neg (by norm_num), Tiles_single,
    clampBbox_of_bounds (-180) (-85) 180 85 le_rfl le_rfl (by norm_num) (by norm_num),
    loopTiles_nil]
  dsimp only
  rw [toInt_min_pow2 _ 2 (by decide), toInt_min_pow2 _ 2 (by decide),
    Tile_southwest_zoom2, Tile_northeast_zoom2]
  decide

theorem mem_world_zoom2 (t : TileID) :
    t ∈ TilesFromBbox (-180) (-85) 180 85 [2]
      ↔ t.Z = 2 ∧ 0 ≤ t.X ∧ t.X < 4 ∧ 0 ≤ t.Y ∧ t.Y < 4 := by
  unfold TilesFromBbox
  rw [if_neg (by norm_num), Tiles_single,
    clampBbox_of_bounds (-180) (-85) 180 85 le_rfl le_rfl (by norm_num) (by norm_num),
    mem_loopTiles_nil]
  dsimp only
  rw [toInt_min_pow2 _ 2 (by decide), toInt_min_pow2 _ 2 (by decide),
    Tile_southwest_zoom2, Tile_northeast_zoom2]
  have e : ((2 : Int) ^ (2 : Int).toNat) = 4 := by decide
  simp only [e]
  constructor
  · rintro ⟨h1, h2, h3, h4, h5⟩
    simp only [lt_irrefl, if_false] at h2 h4
    omega
  · rintro ⟨h1, h2, h3, h4, h5⟩
    simp only [lt_irrefl, if_false]
    omega

/-- C5: full coverage at one zoom. `TilesFromBbox(-180, -85, 180, 85, [2])`
returns exactly 16 tiles, pairwise distinct, and they are exactly the tiles
`{x, y, 2}` with `0 ≤ x < 4` and `0 ≤ y < 4`. -/
theorem TilesFromBbox_full_coverage :
    (TilesFromBbox (-180) (-85) 180 85 [2]).length = 16
      ∧ (TilesFromBbox (-180) (-85) 180 85 [2]).Nodup
      ∧ ∀ t : TileID, t ∈ TilesFromBbox (-180) (-85) 180 85 [2]
          ↔ t.Z = 2 ∧ 0 ≤ t.X ∧ t.X < 4 ∧ 0 ≤ t.Y ∧ t.Y < 4 := by
  refine ⟨?_, ?_, mem_world_zoom2⟩
  · rw [world_zoom2_list]
    rfl
  · rw [world_zoom2_list]
    decide

/-! ### The antimeridian at zoom 1 -/

theorem clampBbox_west_east (bbox : SubBox) :
    (clampBbox bbox).west = max (-180) bbox.west
      ∧ (clampBbox bbox).east = min 180 bbox.east := by
  unfold clampBbox
  norm_num

theorem mem_Tiles_single_X (bbox : SubBox) (z : Int) (hz : 0 ≤ z) (t : TileID)
    (ht : t ∈ Tiles [bbox] [z] []) :
    ⌊(max (-180) bbox.west + 180) / 360 * pow2 z⌋ ≤ t.X
      ∧ t.X ≤ ⌊(min 180 bbox.east + 180) / 360 * pow2 z⌋ := by
  rw [Tiles_single, mem_loopTiles_nil, toInt_min_pow2 _ z hz] at ht
  obtain ⟨_, h1, h2, _, _⟩ := ht
  rw [Tile_X, (clampBbox_west_east bbox).1] at h1
  rw [Tile_X, (clampBbox_west_east bbox).2] at h2
  constructor
  · split at h1 <;> omega
  · have := lt_of_lt_of_le h2 (min_le_left _ _)
    omega

theorem west_part_zoom1_X (south north : ℝ) (t : TileID)
    (ht : t ∈ Tiles [⟨-180, south, -170, north⟩] [1] []) : t.X = 0 := by
  obtain ⟨h1, h2⟩ := mem_Tiles_single_X _ 1 (by decide) t ht
  have hp : pow2 1 = 2 := by norm_num [pow2]
  have e1 : ⌊(max (-180) (-180 : ℝ) + 180) / 360 * pow2 1⌋ = 0 := by
    rw [hp]
    norm_num
  have e2 : ⌊(min 180 (-170 : ℝ) + 180) / 360 * pow2 1⌋ = 0 := by
    rw [hp, Int.floor_eq_iff]
    norm_num
  simp only [e1] at h1
  simp only [e2] at h2
  omega

theorem east_part_zoom1_X (south north : ℝ) (t : TileID)
    (ht : t ∈ Tiles [⟨170, south, 180, north⟩] [1] []) : t.X = 1 := by
  have hz : t.Z = 1 := by
    rw [Tiles_single, mem_loopTiles_nil] at ht
    exact ht.1
  have hv := mem_Tiles_valid _ _ t ht
  obtain ⟨h1, _⟩ := mem_Tiles_single_X _ 1 (by decide) t ht
  have hp : pow2 1 = 2 := by norm_num [pow2]
  have e1 : ⌊(max (-180) (170 : ℝ) + 180) / 360 * pow2 1⌋ = 1 := by
    rw [hp, Int.floor_eq_iff]
    norm_num
  simp only [e1] at h1
  have h2 : (t.X : ℝ) < 2 := by
    have := hv.2.1
    rw [hz] at this
    norm_num at this
    exact this
  have h3 : t.X < 2 := by exact_mod_cast h2
  omega

/-- C11: no cross-duplicates across the antimeridian at zoom 1. For every
`south` and `north`, `TilesFromBbox(170, south, -170, north, [1])` is the tiles
of the sub-box `(-180, south, -170, north)` followed by those of the sub-box
`(170, south, 180, north)`; every tile of the first has `X = 0`, every tile of
the second has `X = 1`, and no tile of the first equals a tile of the second. -/
theorem antimeridian_zoom1_disjoint (south north : ℝ) :
    TilesFromBbox 170 south (-170) north [1]
        = Tiles [⟨-180, south, -170, north⟩] [1] [] ++ Tiles [⟨170, south, 180, north⟩] [1] []
      ∧ (∀ t ∈ Tiles [⟨-180, south, -170, north⟩] [1] [], t.X = 0)
      ∧ (∀ t ∈ Tiles [⟨170, south, 180, north⟩] [1] [], t.X = 1)
      ∧ ∀ t1 ∈ Tiles [⟨-180, south, -170, north⟩] [1] [],
          ∀ t2 ∈ Tiles [⟨170, south, 180, north⟩] [1] [], t1 ≠ t2 := by
  refine ⟨?_, west_part_zoom1_X south north, east_part_zoom1_X south north, ?_⟩
  · unfold TilesFromBbox
    have h180 : (180.0 : ℝ) = 180 := by norm_num
    rw [if_pos (by norm_num), ← Tiles_append, h180]
    rfl
  · intro t1 h1 t2 h2 h
    have e1 := west_part_zoom1_X south north t1 h1
    have e2 := east_part_zoom1_X south north t2 h2
    rw [h] at e1
    omega

theorem Tile_ext (lng lat : ℝ) (z x y : Int) (hx : (Tile lng lat z).X = x)
    (hy : (Tile lng lat z).Y = y) : Tile lng lat z = ⟨x, y, z⟩ := by
  have hz : (Tile lng lat z).Z = z := rfl
  cases h : Tile lng lat z
  simp_all

theorem Tile_Y_equator_zoom1 (lng : ℝ) : (Tile lng 0 1).Y = 1 := by
  rw [Tile_Y]
  norm_num [pow2]

theorem Tile_X_zoom1 (lng lat : ℝ) (x : Int) (h1 : (x : ℝ) * 180 ≤ lng + 180)
    (h2 : lng + 180 < (x + 1) * 180) : (Tile lng lat 1).X = x := by
  have hp : pow2 1 = 2 := by norm_num [pow2]
  rw [Tile_X, hp, Int.floor_eq_iff]
  constructor <;> linarith

theorem antimeridian_zoom1_disjoint_witness :
    (⟨0, 1, 1⟩ : TileID) ∈ Tiles [⟨-180, 0, -170, 0⟩] [1] []
      ∧ (⟨1, 1, 1⟩ : TileID) ∈ Tiles [⟨170, 0, 180, 0⟩] [1] []
      ∧ (⟨0, 1, 1⟩ : TileID) ≠ ⟨1, 1, 1⟩ := by
  have e : ((2 : Int) ^ (1 : Int).toNat) = 2 := by decide
  have m1 : (⟨0, 1, 1⟩ : TileID) ∈ Tiles [⟨-180, 0, -170, 0⟩] [1] [] := by
    rw [Tiles_single,
      clampBbox_of_bounds (-180) 0 (-170) 0 le_rfl (by norm_num) (by norm_num) (by norm_num),
      mem_loopTiles_nil, toInt_min_pow2 _ 1 (by decide), toInt_min_pow2 _ 1 (by decide)]
    dsimp only
    rw [Tile_ext (-180) 0 1 0 1 (Tile_X_zoom1 _ _ 0 (by norm_num) (by norm_num))
        (Tile_Y_equator_zoom1 _),
      Tile_ext (-170) 0 1 0 1 (Tile_X_zoom1 _ _ 0 (by norm_num) (by norm_num))
        (Tile_Y_equator_zoom1 _), e]
    decide
  have m2 : (⟨1, 1, 1⟩ : TileID) ∈ Tiles [⟨170, 0, 180, 0⟩] [1] [] := by
    rw [Tiles_single,
      clampBbox_of_bounds 170 0 180 0 (by norm_num) le_rfl (by norm_num) (by norm_num),
      mem_loopTiles_nil, toInt_min_pow2 _ 1 (by decide), toInt_min_pow2 _ 1 (by decide)]
    dsimp only
    rw [Tile_ext 170 0 1 1 1 (Tile_X_zoom1 _ _ 1 (by norm_num) (by norm_num))
        (Tile_Y_equator_zoom1 _),
      Tile_ext 180 0 1 2 1 (Tile_X_zoom1 _ _ 2 (by norm_num) (by norm_num))
        (Tile_Y_equator_zoom1 _), e]
    decide
  exact ⟨m1, m2, (antimeridian_zoom1_disjoint 0 0).2.2.2 _ m1 _ m2⟩

/-! ### Duplicates from overlapping sub-boxes -/

theorem Tiles_box_zoom0 (west south east north : ℝ)
    (hw : -180 ≤ west) (hwe : west ≤ east) (he : east ≤ 180) (hw2 : west < 180)
    (hs : -85 ≤ south) (hsn : south ≤ north) (hn : north ≤ 85) :
    Tiles [⟨west, south, east, north⟩] [0] [] = [⟨0, 0, 0⟩] := by
  rw [Tiles_single,
    clampBbox_of_bounds west south east north hw he (by linarith) (by linarith), loopTiles_nil]
  dsimp only
  rw [toInt_min_pow2 _ 0 le_rfl, toInt_min_pow2 _ 0 le_rfl,
    Tile_X_zoom0 west south hw hw2, Tile_Y_zoom0 west south hs (by linarith),
    Tile_Y_zoom0 east north (by linarith) hn]
  have hx := Tile_X_nonneg east north 0 (by linarith)
  have e1 : min ((Tile east north 0).X + 1) (2 ^ (0 : Int).toNat) = 1 := by
    simp only [Int.toNat_zero, pow_zero]
    omega
  rw [e1]
  decide

/-- C17: overlapping sub-boxes can yield duplicate tiles. For the
antimeridian-crossing region `west = 170`, `south = -10`, `east = -170`,
`north = 10` and the zoom list `[0]`, `TilesFromBbox` returns the list
`[{0,0,0}, {0,0,0}]`: the tile `{0, 0, 0}` occurs in it twice. -/
theorem antimeridian_zoom0_duplicate :
    TilesFromBbox 170 (-10) (-170) 10 [0] = [⟨0, 0, 0⟩, ⟨0, 0, 0⟩]
      ∧ (TilesFromBbox 170 (-10) (-170) 10 [0]).count ⟨0, 0, 0⟩ = 2 := by
  have h : TilesFromBbox 170 (-10) (-170) 10 [0] = [⟨0, 0, 0⟩, ⟨0, 0, 0⟩] := by
    unfold TilesFromBbox
    have h180 : (180.0 : ℝ) = 180 := by norm_num
    rw [if_pos (by norm_num), h180]
    have ha : Tiles [⟨-180, -10, -170, 10⟩, ⟨170, -10, 180, 10⟩] [0] []
        = Tiles ([⟨-180, -10, -170, 10⟩] ++ [⟨170, -10, 180, 10⟩]) [0] [] := rfl
    rw [ha, Tiles_append,
      Tiles_box_zoom0 (-180) (-10) (-170) 10 le_rfl (by norm_num) (by norm_num) (by norm_num)
        (by norm_num) (by norm_num) (by norm_num),
      Tiles_box_zoom0 170 (-10) 180 10 (by norm_num) (by norm_num) le_rfl (by norm_num)
        (by norm_num) (by norm_num) (by norm_num)]
    rfl
  rw [h]
  exact ⟨rfl, by decide⟩

/-! ### Tile bounds in projected metres -/

theorem tan_quarter_add_half (a : ℝ) (h1 : -(Real.pi / 2) < a) (h2 : a < Real.pi / 2) :
    Real.tan (Real.pi / 4 + a / 2) = Real.tan a + 1 / Real.cos a := by
  have hca : 0 < Real.cos a := Real.cos_pos_of_mem_Ioo ⟨h1, h2⟩
  have hcq : 0 < Real.cos (Real.pi / 4 + a / 2) :=
    Real.cos_pos_of_mem_Ioo ⟨by linarith, by linarith⟩
  have hsc := Real.sin_sq_add_cos_sq (a / 2)
  have hsa : Real.sin a = 2 * Real.sin (a / 2) * Real.cos (a / 2) := by
    rw [← Real.sin_two_mul]
    congr 1
    ring
  have hcosa : Real.cos a = 2 * Real.cos (a / 2) ^ 2 - 1 := by
    rw [← Real.cos_two_mul]
    congr 1
    ring
  rw [Real.tan_eq_sin_div_cos, Real.tan_eq_sin_div_cos, div_add_div_same,
    div_eq_div_iff hcq.ne.symm hca.ne.symm, Real.sin_add, Real.cos_add, Real.sin_pi_div_four,
    Real.cos_pi_div_four, hsa, hcosa]
  linear_combination (√2 * Real.cos (a / 2)) * hsc

theorem log_tan_quarter_arctan_sinh (u : ℝ) :
    Real.log (Real.tan (Real.pi / 4 + Real.arctan (Real.sinh u) / 2)) = u := by
  rw [tan_quarter_add_half _ (Real.neg_pi_div_two_lt_arctan _) (Real.arctan_lt_pi_div_two _),
    log_tan_add_sec _ (Real.cos_arctan_pos _), Real.tan_arctan, Real.arsinh_sinh]

theorem Xy_Ul (t : TileID) :
    Xy (Ul t)
      = (6378137.0 * (((t.X : ℝ) / pow2 t.Z * 360 - 180) * (Real.pi / 180)),
          6378137.0 * (Real.pi * (1 - 2 * (t.Y : ℝ) / pow2 t.Z))) := by
  have hpi := Real.pi_pos
  unfold Xy Ul
  have hrad : 180.0 / Real.pi
        * Real.arctan (Real.sinh (Real.pi * (1 - 2 * (t.Y : ℝ) / pow2 t.Z)))
        * (Real.pi / 180.0)
      = Real.arctan (Real.sinh (Real.pi * (1 - 2 * (t.Y : ℝ) / pow2 t.Z))) := by
    field_simp
  have harg : ∀ a : ℝ, Real.pi * 0.25 + 0.5 * a = Real.pi / 4 + a / 2 := by
    intro a
    norm_num
    ring
  simp only [hrad, harg, log_tan_quarter_arctan_sinh]
  norm_num

/-- C19: tile bounds in projected metres are squares of the expected size. For
every tile `{X, Y, Z}` with `Z ≥ 0`, `0 ≤ X < 2^Z` and `0 ≤ Y < 2^Z`, the box
`b = XyBounds(tile)` has `b.Left < b.Right`, `b.Bottom < b.Top` and
`b.Right - b.Left = b.Top - b.Bottom = 2 * pi * 6378137.0 / 2^Z`. -/
theorem XyBounds_square (X Y Z : Int) (_hZ : 0 ≤ Z)
    (_hX : 0 ≤ X ∧ (X : ℝ) < (2 : ℝ) ^ Z) (_hY : 0 ≤ Y ∧ (Y : ℝ) < (2 : ℝ) ^ Z) :
    (XyBounds ⟨X, Y, Z⟩).Left < (XyBounds ⟨X, Y, Z⟩).Right
      ∧ (XyBounds ⟨X, Y, Z⟩).Bottom < (XyBounds ⟨X, Y, Z⟩).Top
      ∧ (XyBounds ⟨X, Y, Z⟩).Right - (XyBounds ⟨X, Y, Z⟩).Left
          = 2 * Real.pi * 6378137.0 / (2 : ℝ) ^ Z
      ∧ (XyBounds ⟨X, Y, Z⟩).Top - (XyBounds ⟨X, Y, Z⟩).Bottom
          = 2 * Real.pi * 6378137.0 / (2 : ℝ) ^ Z := by
  have hpi := Real.pi_pos
  have hn : 0 < (2 : ℝ) ^ Z := by positivity
  have hw : (XyBounds ⟨X, Y, Z⟩).Right - (XyBounds ⟨X, Y, Z⟩).Left
      = 2 * Real.pi * 6378137.0 / (2 : ℝ) ^ Z := by
    unfold XyBounds
    simp only [Xy_Ul, pow2]
    push_cast
    field_simp
    ring
  have hh : (XyBounds ⟨X, Y, Z⟩).Top - (XyBounds ⟨X, Y, Z⟩).Bottom
      = 2 * Real.pi * 6378137.0 / (2 : ℝ) ^ Z := by
    unfold XyBounds
    simp only [Xy_Ul, pow2]
    push_cast
    field_simp
    ring
  have hpos : 0 < 2 * Real.pi * 6378137.0 / (2 : ℝ) ^ Z := by positivity
  refine ⟨by linarith, by linarith, hw, hh⟩

theorem XyBounds_square_witness :
    (XyBounds ⟨1, 2, 2⟩).Left < (XyBounds ⟨1, 2, 2⟩).Right
      ∧ (XyBounds ⟨1, 2, 2⟩).Bottom < (XyBounds ⟨1, 2, 2⟩).Top
      ∧ (XyBounds ⟨1, 2, 2⟩).Right - (XyBounds ⟨1, 2, 2⟩).Left
          = 2 * Real.pi * 6378137.0 / (2 : ℝ) ^ (2 : Int)
      ∧ (XyBounds ⟨1, 2, 2⟩).Top - (XyBounds ⟨1, 2, 2⟩).Bottom
          = 2 * Real.pi * 6378137.0 / (2 : ℝ) ^ (2 : Int) :=
  XyBounds_square 1 2 2 (by decide) (by norm_num) (by norm_num)

/-! ### Exactness -/

theorem Tile_X_indep (lng lat lat2 : ℝ) (z : Int) : (Tile lng lat z).X = (Tile lng lat2 z).X := by
  rw [Tile_X, Tile_X]

theorem Tile_Y_indep (lng lng2 lat : ℝ) (z : Int) : (Tile lng lat z).Y = (Tile lng2 lat z).Y := by
  rw [Tile_Y, Tile_Y]

theorem Tile_X_Ul (x y z : Int) (lat : ℝ) : (Tile (Ul ⟨x, y, z⟩).Lng lat z).X = x := by
  rw [Tile_X_indep _ lat (Ul ⟨x, y, z⟩).Lat]
  have h := Tile_Ul ⟨x, y, z⟩
  simp only at h
  rw [h]

theorem Tile_Y_Ul (x y z : Int) (lng : ℝ) : (Tile lng (Ul ⟨x, y, z⟩).Lat z).Y = y := by
  rw [Tile_Y_indep _ (Ul ⟨x, y, z⟩).Lng]
  have h := Tile_Ul ⟨x, y, z⟩
  simp only at h
  rw [h]

theorem Ul_Lat_bounds (t : TileID) : -90 < (Ul t).Lat ∧ (Ul t).Lat < 90 := by
  have hpi := Real.pi_pos
  unfold Ul
  have h1 := Real.neg_pi_div_two_lt_arctan
    (Real.sinh (Real.pi * (1 - 2 * (t.Y : ℝ) / pow2 t.Z)))
  have h2 := Real.arctan_lt_pi_div_two
    (Real.sinh (Real.pi * (1 - 2 * (t.Y : ℝ) / pow2 t.Z)))
  have e : ∀ a : ℝ, 180.0 / Real.pi * a = a * 180 / Real.pi := by
    intro a
    norm_num
    ring
  simp only [e]
  constructor
  · rw [lt_div_iff₀ hpi]
    linarith
  · rw [div_lt_iff₀ hpi]
    linarith

/-- Every column between the columns of two longitudes is the column of a
longitude between them. -/
theorem exists_lng_of_X (west east : ℝ) (z x : Int) (hwe : west ≤ east)
    (h1 : (Tile west 0 z).X ≤ x) (h2 : x ≤ (Tile east 0 z).X) :
    ∃ lng : ℝ, west ≤ lng ∧ lng ≤ east ∧ ∀ lat : ℝ, (Tile lng lat z).X = x := by
  by_cases hl : x = (Tile west 0 z).X
  · exact ⟨west, le_rfl, hwe, fun lat => by rw [hl]; exact Tile_X_indep _ _ _ _⟩
  by_cases hu : x = (Tile east 0 z).X
  · exact ⟨east, hwe, le_rfl, fun lat => by rw [hu]; exact Tile_X_indep _ _ _ _⟩
  refine ⟨(Ul ⟨x, 0, z⟩).Lng, ?_, ?_, fun lat => Tile_X_Ul x 0 z lat⟩
  · by_contra hc
    push_neg at hc
    have := Tile_X_mono (Ul ⟨x, 0, z⟩).Lng west 0 0 z hc.le
    rw [Tile_X_Ul] at this
    omega
  · by_contra hc
    push_neg at hc
    have := Tile_X_mono east (Ul ⟨x, 0, z⟩).Lng 0 0 z hc.le
    rw [Tile_X_Ul] at this
    omega

/-- Every row between the rows of two latitudes is the row of a latitude
between them. -/
theorem exists_lat_of_Y (south north : ℝ) (z y : Int) (hs : -90 < south) (hsn : south ≤ north)
    (hn : north < 90) (h1 : (Tile 0 north z).Y ≤ y) (h2 : y ≤ (Tile 0 south z).Y) :
    ∃ lat : ℝ, south ≤ lat ∧ lat ≤ north ∧ ∀ lng : ℝ, (Tile lng lat z).Y = y := by
  by_cases hu : y = (Tile 0 north z).Y
  · exact ⟨north, hsn, le_rfl, fun lng => by rw [hu]; exact Tile_Y_indep _ _ _ _⟩
  by_cases hl : y = (Tile 0 south z).Y
  · exact ⟨south, le_rfl, hsn, fun lng => by rw [hl]; exact Tile_Y_indep _ _ _ _⟩
  obtain ⟨hb1, hb2⟩ := Ul_Lat_bounds ⟨0, y, z⟩
  refine ⟨(Ul ⟨0, y, z⟩).Lat, ?_, ?_, fun lng => Tile_Y_Ul 0 y z lng⟩
  · by_contra hc
    push_neg at hc
    have := Tile_Y_anti 0 0 (Ul ⟨0, y, z⟩).Lat south z hb1 hc.le (by linarith)
    rw [Tile_Y_Ul] at this
    omega
  · by_contra hc
    push_neg at hc
    have := Tile_Y_anti 0 0 north (Ul ⟨0, y, z⟩).Lat z (by linarith) hc.le hb2
    rw [Tile_Y_Ul] at this
    omega

/-- C16: exactness (no spurious tiles). For every box with
`-180 ≤ west ≤ east ≤ 180` and `-85.051129 ≤ south ≤ north ≤ 85.051129` and
every zoom `z ≥ 0`, every tile `t` of `TilesFromBbox(west, south, east, north, [z])`
is the tile of a point of the region: there are `lng` and `lat` with
`west ≤ lng ≤ east`, `south ≤ lat ≤ north` and `Tile(lng, lat, z) = t`. -/
theorem TilesFromBbox_exact (west south east north : ℝ) (z : Int) (t : TileID)
    (hw : -180 ≤ west) (hwe : west ≤ east) (he : east ≤ 180)
    (hs : -85.051129 ≤ south) (hsn : south ≤ north) (hn : north ≤ 85.051129)
    (hz : 0 ≤ z) (ht : t ∈ TilesFromBbox west south east north [z]) :
    ∃ lng lat : ℝ, west ≤ lng ∧ lng ≤ east ∧ south ≤ lat ∧ lat ≤ north
      ∧ Tile lng lat z = t := by
  unfold TilesFromBbox at ht
  rw [if_neg (not_lt.mpr hwe), Tiles_single,
    clampBbox_of_bounds west south east north hw he hs hn, mem_loopTiles_nil,
    toInt_min_pow2 _ z hz, toInt_min_pow2 _ z hz] at ht
  dsimp only at ht
  obtain ⟨hZ, hx1, hx2, hy1, hy2⟩ := ht
  have hx3 := lt_of_lt_of_le hx2 (min_le_left _ _)
  have hy3 := lt_of_lt_of_le hy2 (min_le_left _ _)
  have hxl : (Tile west 0 z).X ≤ t.X := by
    rw [Tile_X_indep west 0 south]
    split at hx1 <;> omega
  have hxu : t.X ≤ (Tile east 0 z).X := by
    rw [Tile_X_indep east 0 north]
    omega
  have hyl : (Tile 0 north z).Y ≤ t.Y := by
    rw [Tile_Y_indep 0 east north]
    split at hy1 <;> omega
  have hyu : t.Y ≤ (Tile 0 south z).Y := by
    rw [Tile_Y_indep 0 west south]
    omega
  obtain ⟨lng, hl1, hl2, hX⟩ := exists_lng_of_X west east z t.X hwe hxl hxu
  obtain ⟨lat, ha1, ha2, hY⟩ :=
    exists_lat_of_Y south north z t.Y (by linarith) hsn (by linarith) hyl hyu
  refine ⟨lng, lat, hl1, hl2, ha1, ha2, ?_⟩
  rw [Tile_ext lng lat z t.X t.Y (hX lat) (hY lng), ← hZ]

theorem TilesFromBbox_exact_witness :
    ∃ lng lat : ℝ, -10 ≤ lng ∧ lng ≤ 10 ∧ -10 ≤ lat ∧ lat ≤ 10 ∧ Tile lng lat 0 = ⟨0, 0, 0⟩ :=
  TilesFromBbox_exact (-10) (-10) 10 10 0 ⟨0, 0, 0⟩ (by norm_num) (by norm_num) (by norm_num)
    (by norm_num) (by norm_num) (by norm_num) le_rfl
    (by
      unfold TilesFromBbox
      rw [if_neg (by norm_num),
        Tiles_box_zoom0 (-10) (-10) 10 10 (by norm_num) (by norm_num) (by norm_num)
          (by norm_num) (by norm_num) (by norm_num) (by norm_num)]
      exact List.mem_singleton_self _)

end Mercantile

/-! ### The legacy enumerator -/

namespace PkgMercantile

open Mercantile (TileID SubBox goFloor toInt pow2)

theorem Tile_eq (lng lat : ℝ) (zoom : Int) : Tile lng lat zoom = Mercantile.Tile lng lat zoom :=
  rfl

theorem tilesLoopJ_eq_new (ll : TileID) (z i : Int) :
    ∀ (n : Nat) (j : Int) (tiles : List TileID),
      (toInt (min ((ll.Y : ℝ) + 1.0) (pow2 z)) - j).toNat = n →
      tilesLoopJ ll z i j tiles = Mercantile.tilesLoopJ [] ll z i j tiles := by
  intro n
  induction n with
  | zero =>
    intro j tiles h
    rw [tilesLoopJ, Mercantile.tilesLoopJ]
    have hj : ¬ j < toInt (min ((ll.Y : ℝ) + 1.0) (pow2 z)) := by omega
    rw [if_neg hj, if_neg hj]
  | succ n ih =>
    intro j tiles h
    rw [tilesLoopJ, Mercantile.tilesLoopJ]
    have hj : j < toInt (min ((ll.Y : ℝ) + 1.0) (pow2 z)) := by omega
    have hs : ¬ Mercantile.skipped [] ⟨i, j, z⟩ := by simp [Mercantile.skipped]
    rw [if_pos hj, if_pos hj]
    simp only [hs, if_false]
    exact ih (j + 1) _ (by omega)

theorem tilesLoopI_eq_new (ll ur : TileID) (z ury : Int) :
    ∀ (n : Nat) (i : Int) (tiles : List TileID),
      (toInt (min ((ur.X : ℝ) + 1.0) (pow2 z)) - i).toNat = n →
      tilesLoopI ll ur z ury i tiles = Mercantile.tilesLoopI [] ll ur z ury i tiles := by
  intro n
  induction n with
  | zero =>
    intro i tiles h
    rw [tilesLoopI, Mercantile.tilesLoopI]
    have hi : ¬ i < toInt (min ((ur.X : ℝ) + 1.0) (pow2 z)) := by omega
    rw [if_neg hi, if_neg hi]
  | succ n ih =>
    intro i tiles h
    rw [tilesLoopI, Mercantile.tilesLoopI]
    have hi : i < toInt (min ((ur.X : ℝ) + 1.0) (pow2 z)) := by omega
    rw [if_pos hi, if_pos hi, tilesLoopJ_eq_new ll z i _ ury tiles rfl]
    exact ih (i + 1) _ (by omega)

theorem tilesZoom_eq_new (w s e n : ℝ) :
    tilesZoom w s e n = Mercantile.tilesZoom [] w s e n := by
  funext tiles z
  unfold tilesZoom Mercantile.tilesZoom
  exact tilesLoopI_eq_new _ _ z _ _ _ tiles rfl

/-- C18: old and new enumerators agree. For every `west`, `south`, `east`,
`north` and every list of zooms, the legacy `pkg/mercantile.Tiles` returns the
same list of tiles, in the same order, as `mercantile.TilesFromBbox`. -/
theorem Tiles_eq_TilesFromBbox (west south east north : ℝ) (zooms : List Int) :
    Tiles west south east north zooms
      = Mercantile.TilesFromBbox west south east north zooms := by
  unfold Tiles Mercantile.TilesFromBbox Mercantile.Tiles
  have h : (fun (tiles : List TileID) (bbox : SubBox) =>
        List.foldl
          (tilesZoom (clampBbox bbox).west (clampBbox bbox).south (clampBbox bbox).east
            (clampBbox bbox).north) tiles zooms)
      = Mercantile.tilesBbox zooms [] := by
    funext tiles bbox
    unfold Mercantile.tilesBbox
    rw [tilesZoom_eq_new]
    rfl
  simp only [h]

end PkgMercantile

/-! ### The package `downloader` -/

namespace Downloader

theorem Set_example :
    Zooms.Set none "10,11,-2".toList = (none, some [10, 11, -2])
      ∧ (Zooms.Set (some [4]) "5,x,6".toList).2 = some [4, 5]
      ∧ decimal (-1203) = "-1203".toList := by
  refine ⟨by decide, by decide, ?_⟩
  have h : (-1203 : Int) = Int.negSucc 1202 := rfl
  rw [h]
  simp only [decimal, natDecimal]
  norm_num [digitChar]

/-- C14: for every `Options` value, `ValidateOptions` returns `nil` if and only
if `URL` is non-empty, `Layer` is non-empty, `Zooms` is non-nil and `Bbox`
differs from the zero `Bbox`; otherwise it returns the error that names the
first missing option in the order URL, Layer, Zooms, Bbox. -/
theorem ValidateOptions_spec (o : Options) :
    (ValidateOptions o = none
        ↔ o.URL ≠ [] ∧ o.Layer ≠ [] ∧ o.Zooms ≠ none ∧ o.Bbox ≠ ⟨0, 0, 0, 0⟩)
      ∧ (o.URL = [] → ValidateOptions o = some "Wms server url is required")
      ∧ (o.URL ≠ [] → o.Layer = [] → ValidateOptions o = some "Layer name is required")
      ∧ (o.URL ≠ [] → o.Layer ≠ [] → o.Zooms = none
          → ValidateOptions o = some "Zooms are required")
      ∧ (o.URL ≠ [] → o.Layer ≠ [] → o.Zooms ≠ none → o.Bbox = ⟨0, 0, 0, 0⟩
          → ValidateOptions o = some "Bbox is required") := by
  unfold ValidateOptions
  refine ⟨?_, ?_, ?_, ?_, ?_⟩
  · split_ifs <;> simp_all
  · intro h
    simp [h]
  · intro h1 h2
    simp [h1, h2]
  · intro h1 h2 h3
    simp [h1, h2, h3]
  · intro h1 h2 h3 h4
    simp [h1, h2, h3, h4]

/-! ### Parsing decimal representations -/

theorem digitValue_digitChar (d : Nat) (h : d < 10) : digitValue (digitChar d) = some d := by
  interval_cases d <;> decide

theorem digitChar_ne_sign (d : Nat) (h : d < 10) :
    digitChar d ≠ ',' ∧ digitChar d ≠ '-' ∧ digitChar d ≠ '+' := by
  interval_cases d <;> decide

theorem parseDigits_map (l : List Nat) (hl : ∀ d ∈ l, d < 10) :
    ∀ n : Nat, parseDigits (l.map digitChar) n = some (l.foldl (fun a d => a * 10 + d) n) := by
  induction l with
  | nil => intro n; rfl
  | cons d l ih =>
    intro n
    simp only [List.map_cons, parseDigits, List.foldl_cons,
      digitValue_digitChar d (hl d (List.mem_cons_self _ _))]
    exact ih (fun e he => hl e (List.mem_cons_of_mem _ he)) _

theorem foldr_eq_ofDigits (l : List Nat) :
    l.foldr (fun d a => a * 10 + d) 0 = Nat.ofDigits 10 l := by
  induction l with
  | nil => rfl
  | cons d l ih =>
    rw [List.foldr_cons, ih, Nat.ofDigits_cons]
    ring

theorem foldl_reverse_digits (m : Nat) :
    (Nat.digits 10 m).reverse.foldl (fun a d => a * 10 + d) 0 = m := by
  rw [List.foldl_reverse, foldr_eq_ofDigits, Nat.ofDigits_digits]

theorem natDecimal_chars (m : Nat) (c : Char) (hc : c ∈ natDecimal m) :
    ∃ d, d < 10 ∧ c = digitChar d := by
  unfold natDecimal at hc
  split at hc
  · simp only [List.mem_singleton] at hc
    exact ⟨0, by decide, by rw [hc]; decide⟩
  · simp only [List.mem_map, List.mem_reverse] at hc
    obtain ⟨d, hd, rfl⟩ := hc
    exact ⟨d, Nat.digits_lt_base (by decide) hd, rfl⟩

theorem natDecimal_ne_nil (m : Nat) : natDecimal m ≠ [] := by
  unfold natDecimal
  split
  · simp
  · rename_i h
    simp only [ne_eq, List.map_eq_nil_iff, List.reverse_eq_nil_iff]
    exact fun h0 => h (Nat.digits_eq_nil_iff_eq_zero.mp h0)

theorem parseDigits_natDecimal (m : Nat) : parseDigits (natDecimal m) 0 = some m := by
  unfold natDecimal
  split
  · rename_i h
    rw [h]
    decide
  · rw [parseDigits_map _ (fun d hd => Nat.digits_lt_base (by decide) (List.mem_reverse.mp hd)),
      foldl_reverse_digits]

theorem parseSigned_natDecimal (s : GoString) (neg : Bool) (m : Nat) :
    parseSigned s neg (natDecimal m)
      = if neg then
          if m ≤ 2 ^ 63 then Except.ok (-(m : Int)) else Except.error ⟨s⟩
        else
          if m < 2 ^ 63 then Except.ok (m : Int) else Except.error ⟨s⟩ := by
  unfold parseSigned
  rw [if_neg (natDecimal_ne_nil m), parseDigits_natDecimal]

theorem Atoi_natDecimal (m : Nat) (h : m < 2 ^ 63) : Atoi (natDecimal m) = Except.ok (m : Int) := by
  have hne := natDecimal_ne_nil m
  have hch := natDecimal_chars m
  have hp := parseSigned_natDecimal (natDecimal m) false m
  revert hne hch hp
  cases natDecimal m with
  | nil => intro hne; exact absurd rfl hne
  | cons c r =>
    intro _ hch hp
    obtain ⟨d, hd, hcd⟩ := hch c (List.mem_cons_self _ _)
    have hs := digitChar_ne_sign d hd
    rw [← hcd] at hs
    unfold Atoi
    simp only [hs.2.1, hs.2.2, if_false]
    rw [hp]
    simp only [Bool.false_eq_true, if_false, if_pos h]

/-- Parsing the decimal representation of a 64-bit integer gives it back. -/
theorem Atoi_decimal (n : Int) (h1 : -2 ^ 63 ≤ n) (h2 : n < 2 ^ 63) :
    Atoi (decimal n) = Except.ok n := by
  cases n with
  | ofNat m =>
    have hm : m < 2 ^ 63 := by
      have : ((m : Nat) : Int) < 2 ^ 63 := h2
      exact_mod_cast this
    exact Atoi_natDecimal m hm
  | negSucc m =>
    have hm : m + 1 ≤ 2 ^ 63 := by
      have : -2 ^ 63 ≤ Int.negSucc m := h1
      rw [Int.negSucc_eq] at this
      have h3 : ((m : Int) + 1) ≤ 2 ^ 63 := by linarith
      exact_mod_cast h3
    unfold decimal Atoi
    simp only [if_true]
    rw [parseSigned_natDecimal, if_pos rfl, if_pos hm, Int.negSucc_eq]
    push_cast
    rfl

/-! ### Splitting at the commas -/

theorem Split_of_no_comma (s : GoString) (h : ',' ∉ s) : Split s = [s] := by
  induction s with
  | nil => rfl
  | cons c cs ih =>
    have hc : c ≠ ',' := fun e => h (by rw [e]; exact List.mem_cons_self _ _)
    have hcs : ',' ∉ cs := fun e => h (List.mem_cons_of_mem _ e)
    simp only [Split, if_neg hc, ih hcs]

theorem Split_append_comma (s rest : GoString) (h : ',' ∉ s) :
    Split (s ++ ',' :: rest) = s :: Split rest := by
  induction s with
  | nil => simp [Split]
  | cons c cs ih =>
    have hc : c ≠ ',' := fun e => h (by rw [e]; exact List.mem_cons_self _ _)
    have hcs : ',' ∉ cs := fun e => h (List.mem_cons_of_mem _ e)
    have e : (c :: cs) ++ ',' :: rest = c :: (cs ++ ',' :: rest) := rfl
    rw [e]
    simp only [Split, if_neg hc, ih hcs]

theorem Split_joinComma (l : List GoString) (hl : l ≠ []) (h : ∀ s ∈ l, ',' ∉ s) :
    Split (joinComma l) = l := by
  induction l with
  | nil => exact absurd rfl hl
  | cons s t ih =>
    cases t with
    | nil => exact Split_of_no_comma s (h s (List.mem_cons_self _ _))
    | cons u rest =>
      simp only [joinComma]
      rw [Split_append_comma s _ (h s (List.mem_cons_self _ _)),
        ih (by simp) (fun x hx => h x (List.mem_cons_of_mem _ hx))]

theorem decimal_no_comma (n : Int) : ',' ∉ decimal n := by
  have hnat : ∀ m : Nat, ',' ∉ natDecimal m := by
    intro m hc
    obtain ⟨d, hd, he⟩ := natDecimal_chars m _ hc
    exact (digitChar_ne_sign d hd).1 he.symm
  cases n with
  | ofNat m => exact hnat m
  | negSucc m =>
    unfold decimal
    intro hc
    rcases List.mem_cons.mp hc with h | h
    · exact absurd h (by decide)
    · exact hnat _ h

/-! ### `Zooms.Set` -/

theorem setLoop_decimal (ns : List Int) (hr : ∀ n ∈ ns, -2 ^ 63 ≤ n ∧ n < 2 ^ 63) :
    ∀ zooms : Zooms, setLoop (ns.map decimal) zooms = (none, ns.foldl appendZoom zooms) := by
  induction ns with
  | nil => intro zooms; rfl
  | cons n ns ih =>
    intro zooms
    obtain ⟨h1, h2⟩ := hr n (List.mem_cons_self _ _)
    simp only [List.map_cons, setLoop, Atoi_decimal n h1 h2, List.foldl_cons]
    exact ih (fun m hm => hr m (List.mem_cons_of_mem _ hm)) _

theorem foldl_appendZoom (ns : List Int) (hne : ns ≠ []) :
    ∀ zooms : Zooms, ns.foldl appendZoom zooms = some (zooms.getD [] ++ ns) := by
  induction ns with
  | nil => exact absurd rfl hne
  | cons n ns ih =>
    intro zooms
    cases ns with
    | nil => rfl
    | cons m rest =>
      rw [List.foldl_cons, ih (by simp)]
      simp [appendZoom]

/-- C15: for every non-empty list of integers (values of the 64-bit Go type
`int`), `Zooms.Set` applied to their decimal representations joined by commas
returns `nil` and leaves the receiver equal to its previous contents followed
by exactly those integers, in the same order. -/
theorem Zooms_Set_decimal (zooms : Zooms) (ns : List Int) (hne : ns ≠ [])
    (hr : ∀ n ∈ ns, -2 ^ 63 ≤ n ∧ n < 2 ^ 63) :
    Zooms.Set zooms (joinComma (ns.map decimal)) = (none, some (zooms.getD [] ++ ns)) := by
  unfold Zooms.Set
  rw [Split_joinComma _ (by simpa using hne), setLoop_decimal ns hr, foldl_appendZoom ns hne]
  intro s hs
  obtain ⟨n, _, rfl⟩ := List.mem_map.mp hs
  exact decimal_no_comma n

theorem Zooms_Set_decimal_witness :
    Zooms.Set (some [4]) (joinComma ([10, -3, 0].map decimal)) = (none, some [4, 10, -3, 0]) :=
  Zooms_Set_decimal (some [4]) [10, -3, 0] (by decide) (by decide)

end Downloader
